import Mathlib

/-!
Verification development for the text-flow and table-layout engine of the
PyFPDF repository (files `fpdf/line_break.py` and `fpdf/table.py`).

The Python source is shallowly embedded: each Python class becomes a Lean
structure, each method a Lean function translated line by line from the
source.  Floating-point widths are modelled as rationals.  Python
exceptions are modelled with `Except`; the single loop of
`MultiLineBreak.get_line_of_given_width` is modelled with a fuel
parameter (`Option.none` = fuel exhausted, never reached with enough fuel).
-/

-- Batteries marks the `Rat` arithmetic `@[irreducible]`, which blocks
-- `decide`-style evaluation of the model on concrete rational inputs in
-- the elaborator (the kernel itself never respects reducibility
-- attributes, so this changes nothing about what the kernel accepts).
-- Restore the default reducibility so concrete runs can be evaluated.
set_option allowUnsafeReducibility true
attribute [semireducible] Rat.add Rat.mul Rat.sub Rat.inv

namespace Fpdf

/-- Equality of `Except` values is decidable when it is on both sides;
used to evaluate the model on concrete inputs. -/
instance {α β : Type} [DecidableEq α] [DecidableEq β] :
    DecidableEq (Except α β) := fun x y =>
  match x, y with
  | Except.error a, Except.error b =>
      if h : a = b then Decidable.isTrue (by rw [h])
      else Decidable.isFalse (by intro hh; cases hh; exact h rfl)
  | Except.ok a, Except.ok b =>
      if h : a = b then Decidable.isTrue (by rw [h])
      else Decidable.isFalse (by intro hh; cases hh; exact h rfl)
  | Except.error _, Except.ok _ => Decidable.isFalse (by intro hh; cases hh)
  | Except.ok _, Except.error _ => Decidable.isFalse (by intro hh; cases hh)

/-- `SOFT_HYPHEN = "­"` (line_break.py line 5). -/
def SOFT_HYPHEN : Char := '\u00ad'

/-- `HYPHEN = "-"` (line_break.py line 6). -/
def HYPHEN : Char := '-'

/-- `SPACE = " "` (line_break.py line 7). -/
def SPACE : Char := ' '

/-- `NEWLINE = "\n"` (line_break.py line 8). -/
def NEWLINE : Char := '\n'

/-- `class Fragment` (line_break.py lines 11-58): an ordered sequence of
characters sharing one set of style attributes. -/
structure Fragment where
  font_family : String
  font_size_pt : ℚ
  font_style : String
  underline : Bool
  font_stretching : ℚ
  characters : List Char
deriving DecidableEq, Inhabited

/-- `Fragment.trim` (line_break.py lines 43-44). -/
def Fragment.trim (f : Fragment) (index : ℕ) : Fragment :=
  { f with characters := f.characters.take index }

/-- `class TextLine(NamedTuple)` (line_break.py lines 61-66). -/
structure TextLine where
  fragments : List Fragment
  text_width : ℚ
  number_of_spaces_between_words : ℕ
  justify : Bool
  trailing_nl : Bool
deriving DecidableEq

/-- `class SpaceHint(NamedTuple)` (line_break.py lines 69-75). -/
structure SpaceHint where
  original_fragment_index : ℕ
  original_character_index : ℕ
  current_line_fragment_index : ℕ
  current_line_character_index : ℕ
  width : ℚ
  number_of_spaces : ℕ
deriving DecidableEq

/-- `class HyphenHint(NamedTuple)` (line_break.py lines 78-91).
The Python annotation of `curchar_font_stretching` says `bool` but the
value stored is the numeric stretch factor, so we use `ℚ`. -/
structure HyphenHint where
  original_fragment_index : ℕ
  original_character_index : ℕ
  current_line_fragment_index : ℕ
  current_line_character_index : ℕ
  width : ℚ
  number_of_spaces : ℕ
  curchar : Char
  curchar_width : ℚ
  curchar_font_family : String
  curchar_font_size_pt : ℚ
  curchar_font_style : String
  curchar_underline : Bool
  curchar_font_stretching : ℚ
deriving DecidableEq

/-- `class CurrentLine` state (line_break.py lines 94-119). -/
structure CurrentLine where
  print_sh : Bool
  fragments : List Fragment
  width : ℚ
  number_of_spaces : ℕ
  space_break_hint : Option SpaceHint
  hyphen_break_hint : Option HyphenHint
deriving DecidableEq

/-- `CurrentLine.__init__` (line_break.py lines 95-119). -/
def CurrentLine.init (print_sh : Bool) : CurrentLine :=
  { print_sh := print_sh
    fragments := []
    width := 0
    number_of_spaces := 0
    space_break_hint := Option.none
    hyphen_break_hint := Option.none }

/-- Append a character to the last fragment of a list
(models `active_fragment.characters.append(character)` where
`active_fragment = self.fragments[-1]`). -/
def appendToLast (frags : List Fragment) (c : Char) : List Fragment :=
  match frags with
  | [] => []
  | [f] => [{ f with characters := f.characters ++ [c] }]
  | f :: g :: rest => f :: appendToLast (g :: rest) c

/-- Trim the characters of the last fragment of a list to length `n`
(models `self.fragments[-1].trim(...)` in `_apply_automatic_hint`). -/
def trimLast (frags : List Fragment) (n : ℕ) : List Fragment :=
  match frags with
  | [] => []
  | [f] => [f.trim n]
  | f :: g :: rest => f :: trimLast (g :: rest) n

/-- The concatenated character content of a list of fragments. -/
def fragsChars (frags : List Fragment) : List Char :=
  (frags.map (fun f => f.characters)).flatten

/-- The character content of a finished line. -/
def TextLine.chars (tl : TextLine) : List Char :=
  fragsChars tl.fragments

/-- The character content of a line under construction. -/
def CurrentLine.chars (cl : CurrentLine) : List Char :=
  fragsChars cl.fragments

/-- The character content a rollback to the line position
`(fragIdx, charIdx)` of a break hint would leave in the line
(the fragments of `CurrentLine._apply_automatic_hint`). -/
def truncChars (frags : List Fragment) (fragIdx charIdx : ℕ) : List Char :=
  fragsChars (trimLast (frags.take fragIdx) charIdx)

/-- The fragment-list management at the start of
`CurrentLine.add_character` (line_break.py lines 135-154): start a new
fragment when the list is empty or when the style/underline of the
pending character differ from the last fragment. -/
def CurrentLine.fragmentsForAdd (cl : CurrentLine) (font_family : String)
    (font_size_pt : ℚ) (font_style : String) (underline : Bool)
    (font_stretching : ℚ) : List Fragment :=
  match cl.fragments.getLast? with
  | Option.none =>
      [Fragment.mk font_family font_size_pt font_style underline
        font_stretching []]
  | Option.some last =>
      if font_style ≠ last.font_style ∨ underline ≠ last.underline then
        cl.fragments ++
          [Fragment.mk font_family font_size_pt font_style underline
            font_stretching []]
      else
        cl.fragments

/-- `CurrentLine.add_character` (line_break.py lines 121-186). -/
def CurrentLine.add_character (cl : CurrentLine) (character : Char)
    (character_width : ℚ) (font_family : String) (font_size_pt : ℚ)
    (font_style : String) (underline : Bool) (font_stretching : ℚ)
    (original_fragment_index original_character_index : ℕ) : CurrentLine :=
  let frags := cl.fragmentsForAdd font_family font_size_pt font_style
    underline font_stretching
  let activeLen := (frags.getLast?.map (fun f => f.characters.length)).getD 0
  let cl₁ :=
    if character = SPACE then
      { cl with
        space_break_hint := Option.some
          (SpaceHint.mk original_fragment_index original_character_index
            frags.length activeLen cl.width cl.number_of_spaces)
        number_of_spaces := cl.number_of_spaces + 1 }
    else if character = SOFT_HYPHEN ∧ ¬cl.print_sh then
      { cl with
        hyphen_break_hint := Option.some
          (HyphenHint.mk original_fragment_index original_character_index
            frags.length activeLen cl.width cl.number_of_spaces
            HYPHEN character_width font_family font_size_pt font_style
            underline font_stretching) }
    else
      cl
  if character ≠ SOFT_HYPHEN ∨ cl.print_sh then
    { cl₁ with
      width := cl₁.width + character_width
      fragments := appendToLast frags character }
  else
    { cl₁ with fragments := frags }

/-- `CurrentLine._apply_automatic_hint` (line_break.py lines 188-198),
with the four hint fields it reads passed explicitly. -/
def CurrentLine.applyHint (cl : CurrentLine)
    (current_line_fragment_index current_line_character_index : ℕ)
    (number_of_spaces : ℕ) (width : ℚ) : CurrentLine :=
  { cl with
    fragments :=
      trimLast (cl.fragments.take current_line_fragment_index)
        current_line_character_index
    number_of_spaces := number_of_spaces
    width := width }

/-- `CurrentLine.manual_break` (line_break.py lines 200-207). -/
def CurrentLine.manual_break (cl : CurrentLine)
    (justify : Bool := false) (trailing_nl : Bool := false) : TextLine :=
  { fragments := cl.fragments
    text_width := cl.width
    number_of_spaces_between_words := cl.number_of_spaces
    justify := decide (cl.number_of_spaces > 0) && justify
    trailing_nl := trailing_nl }

/-- `CurrentLine.automatic_break_possible` (line_break.py lines 209-210). -/
def CurrentLine.automatic_break_possible (cl : CurrentLine) : Bool :=
  cl.hyphen_break_hint.isSome || cl.space_break_hint.isSome

/-- The hyphen branch of `automatic_break` (line_break.py lines 218-234):
restore the hyphen checkpoint, append the stored substitute character,
finish the line. -/
def CurrentLine.hyphenBreakResult (cl : CurrentLine) (hh : HyphenHint)
    (justify : Bool) : ℕ × ℕ × TextLine :=
  let restored := cl.applyHint hh.current_line_fragment_index
    hh.current_line_character_index hh.number_of_spaces hh.width
  let withHyphen := restored.add_character hh.curchar hh.curchar_width
    hh.curchar_font_family hh.curchar_font_size_pt hh.curchar_font_style
    hh.curchar_underline hh.curchar_font_stretching
    hh.original_fragment_index hh.original_character_index
  (hh.original_fragment_index, hh.original_character_index,
    withHyphen.manual_break justify)

/-- `CurrentLine.automatic_break` (line_break.py lines 212-240).
Returns `Option.none` exactly when both hints are absent (where the Python
code would fail its `assert`/attribute access, a state the caller never
reaches thanks to the `automatic_break_possible` guard). -/
def CurrentLine.automatic_break (cl : CurrentLine) (justify : Bool) :
    Option (ℕ × ℕ × TextLine) :=
  match cl.hyphen_break_hint with
  | Option.some hh =>
      match cl.space_break_hint with
      | Option.some sh =>
          if hh.width > sh.width then
            Option.some (CurrentLine.hyphenBreakResult cl hh justify)
          else
            Option.some
              (sh.original_fragment_index, sh.original_character_index,
                (cl.applyHint sh.current_line_fragment_index
                  sh.current_line_character_index sh.number_of_spaces
                  sh.width).manual_break justify)
      | Option.none =>
          Option.some (CurrentLine.hyphenBreakResult cl hh justify)
  | Option.none =>
      match cl.space_break_hint with
      | Option.some sh =>
          Option.some
            (sh.original_fragment_index, sh.original_character_index,
              (cl.applyHint sh.current_line_fragment_index
                sh.current_line_character_index sh.number_of_spaces
                sh.width).manual_break justify)
      | Option.none => Option.none

/-- The construction-time fields of `class MultiLineBreak`
(line_break.py lines 244-257). -/
structure MultiLineBreak where
  styled_text_fragments : List Fragment
  size_by_style : Char → String → ℚ
  justify : Bool
  print_sh : Bool

/-- The mutable cursor state of `class MultiLineBreak`
(line_break.py lines 255-257). -/
structure MLBState where
  fragment_index : ℕ
  character_index : ℕ
  char_index_for_last_forced_manual_break : Option ℕ
deriving DecidableEq

/-- `MultiLineBreak._get_character_width` (line_break.py lines 259-263). -/
def MultiLineBreak.getCharacterWidth (mlb : MultiLineBreak) (character : Char)
    (style : String) : ℚ :=
  if character = SOFT_HYPHEN ∧ ¬mlb.print_sh then
    mlb.size_by_style HYPHEN style
  else
    mlb.size_by_style character style

/-- `self.styled_text_fragments[self.fragment_index]` (guarded by the
loop condition, so the junk default is never observed). -/
def MultiLineBreak.fragAt (mlb : MultiLineBreak) (fragment_index : ℕ) :
    Fragment :=
  mlb.styled_text_fragments.getD fragment_index default

/-- `current_fragment.characters[self.character_index]` (guarded by the
in-fragment bound, so the junk default is never observed). -/
def MultiLineBreak.charAt (mlb : MultiLineBreak)
    (fragment_index character_index : ℕ) : Char :=
  (mlb.fragAt fragment_index).characters.getD character_index '\u0000'

/-- The width the loop measures for the character at the cursor. -/
def MultiLineBreak.widthAt (mlb : MultiLineBreak)
    (fragment_index character_index : ℕ) : ℚ :=
  mlb.getCharacterWidth (mlb.charAt fragment_index character_index)
    (mlb.fragAt fragment_index).font_style

/-- The `while` loop of `MultiLineBreak.get_line_of_given_width`
(line_break.py lines 280-341), including the post-loop handling of
`line_full` (lines 334-341), fuelled.  `saved` is the local
`char_index_for_last_forced_manual_break` of the call, `startF`/`startC`
are `last_fragment_index`/`last_character_index`.  Result `Option.none`
means the fuel ran out; `Except.error ()` models the
`FPDFException("Not enough horizontal space ...")` raise (line 314). -/
def MultiLineBreak.lineLoop (mlb : MultiLineBreak) (maximum_width : ℚ)
    (wordsplit : Bool) (saved : Option ℕ) (startF startC : ℕ) :
    ℕ → ℕ → ℕ → CurrentLine →
    Option (Except Unit (Option TextLine × MLBState))
  | 0, _, _, _ => Option.none
  | fuel + 1, fragment_index, character_index, current_line =>
    if fragment_index < mlb.styled_text_fragments.length then
      if character_index <
          (mlb.fragAt fragment_index).characters.length then
        let character := mlb.charAt fragment_index character_index
        let character_width := mlb.widthAt fragment_index character_index
        if character = NEWLINE then
          Option.some (Except.ok
            (Option.some (current_line.manual_break false true),
              MLBState.mk fragment_index (character_index + 1) Option.none))
        else if current_line.width + character_width > maximum_width then
          if character = SPACE then
            Option.some (Except.ok
              (Option.some (current_line.manual_break mlb.justify false),
                MLBState.mk fragment_index (character_index + 1) Option.none))
          else if current_line.automatic_break_possible then
            match current_line.automatic_break mlb.justify with
            | Option.some (fi, ci, line) =>
                Option.some (Except.ok
                  (Option.some line, MLBState.mk fi (ci + 1) Option.none))
            | Option.none => Option.none
          else if ¬wordsplit then
            -- `line_full = True; break` (lines 310-312) followed by the
            -- post-loop rollback to the call entry position (lines 334-339).
            Option.some (Except.ok
              (Option.some ((CurrentLine.init false).manual_break mlb.justify
                false),
                MLBState.mk startF startC Option.none))
          else if saved = Option.some character_index then
            Option.some (Except.error ())
          else
            Option.some (Except.ok
              (Option.some (current_line.manual_break false false),
                MLBState.mk fragment_index character_index
                  (Option.some character_index)))
        else
          MultiLineBreak.lineLoop mlb maximum_width wordsplit saved startF
            startC fuel fragment_index (character_index + 1)
            (current_line.add_character character character_width
              (mlb.fragAt fragment_index).font_family
              (mlb.fragAt fragment_index).font_size_pt
              (mlb.fragAt fragment_index).font_style
              (mlb.fragAt fragment_index).underline
              (mlb.fragAt fragment_index).font_stretching
              fragment_index character_index)
      else
        MultiLineBreak.lineLoop mlb maximum_width wordsplit saved startF
          startC fuel (fragment_index + 1) 0 current_line
    else
      -- loop exit (lines 340-341): a line is returned only if its width is
      -- non-zero; otherwise the Python function falls through and returns
      -- `None` (the "no more lines" sentinel).
      if current_line.width ≠ 0 then
        Option.some (Except.ok
          (Option.some (current_line.manual_break false false),
            MLBState.mk fragment_index character_index Option.none))
      else
        Option.some (Except.ok
          (Option.none, MLBState.mk fragment_index character_index
            Option.none))

/-- `MultiLineBreak.get_line_of_given_width` (line_break.py lines 266-341). -/
def MultiLineBreak.get_line_of_given_width (mlb : MultiLineBreak)
    (st : MLBState) (maximum_width : ℚ) (wordsplit : Bool) (fuel : ℕ) :
    Option (Except Unit (Option TextLine × MLBState)) :=
  let saved := st.char_index_for_last_forced_manual_break
  if st.fragment_index = mlb.styled_text_fragments.length then
    Option.some (Except.ok
      (Option.none,
        { st with char_index_for_last_forced_manual_break := Option.none }))
  else
    MultiLineBreak.lineLoop mlb maximum_width wordsplit saved
      st.fragment_index st.character_index fuel st.fragment_index
      st.character_index (CurrentLine.init mlb.print_sh)

/-- Drive `get_line_of_given_width` over a list of `(width, wordsplit)`
queries, collecting the returned lines; stops at the first "no more lines"
sentinel.  The `Bool` in the result records whether the sentinel was
reached. -/
def MultiLineBreak.runQueries (mlb : MultiLineBreak) (fuel : ℕ) :
    List (ℚ × Bool) → MLBState →
    Option (Except Unit (List TextLine × Bool × MLBState))
  | [], st => Option.some (Except.ok ([], false, st))
  | (w, ws) :: qs, st =>
    match mlb.get_line_of_given_width st w ws fuel with
    | Option.none => Option.none
    | Option.some (Except.error e) => Option.some (Except.error e)
    | Option.some (Except.ok (Option.none, st')) =>
        Option.some (Except.ok ([], true, st'))
    | Option.some (Except.ok (Option.some line, st')) =>
        match MultiLineBreak.runQueries mlb fuel qs st' with
        | Option.none => Option.none
        | Option.some (Except.error e) => Option.some (Except.error e)
        | Option.some (Except.ok (lines, sentinel, stf)) =>
            Option.some (Except.ok (line :: lines, sentinel, stf))

/-! ### Cursor positions and text slices

Auxiliary notions used to state the text-reconstruction property: the
absolute character position of a driver cursor `(fragment_index,
character_index)` within the concatenated run text, and contiguous
slices of that text. -/

/-- The full character content of the driver's input runs. -/
def MultiLineBreak.textChars (mlb : MultiLineBreak) : List Char :=
  fragsChars mlb.styled_text_fragments

/-- Absolute index of the cursor `(f, c)` in the concatenated text. -/
def absPos (frags : List Fragment) (f c : ℕ) : ℕ :=
  ((frags.take f).map (fun fr => fr.characters.length)).sum + c

/-- Absolute index of a cursor in the driver's input. -/
def MultiLineBreak.absAt (mlb : MultiLineBreak) (f c : ℕ) : ℕ :=
  absPos mlb.styled_text_fragments f c

/-- The contiguous slice `[a, b)` of a character list. -/
def slice (l : List Char) (a b : ℕ) : List Char :=
  (l.drop a).take (b - a)

/-- A well-formed cursor: within the fragment list, within the current
fragment, and normalized to `(length, 0)` at the end of the input. -/
def MultiLineBreak.cursorOK (mlb : MultiLineBreak) (f c : ℕ) : Prop :=
  f ≤ mlb.styled_text_fragments.length ∧
  (f < mlb.styled_text_fragments.length →
    c ≤ (mlb.fragAt f).characters.length) ∧
  (f = mlb.styled_text_fragments.length → c = 0)

/-- The facts the reconstruction proof tracks about a recorded space
hint: it points at a word-space inside the input at or after the current
call's start position `startAbs`, its recorded line position is within
the accumulated fragments, and rolling the accumulated fragments back to
that position leaves exactly the text consumed from `startAbs` up to the
space. -/
def spaceHintInv (mlb : MultiLineBreak) (startAbs : ℕ)
    (frags : List Fragment) (h : SpaceHint) : Prop :=
  h.original_fragment_index < mlb.styled_text_fragments.length ∧
  h.original_character_index <
    (mlb.fragAt h.original_fragment_index).characters.length ∧
  mlb.charAt h.original_fragment_index h.original_character_index = SPACE ∧
  startAbs ≤ mlb.absAt h.original_fragment_index
    h.original_character_index ∧
  0 < h.current_line_fragment_index ∧
  h.current_line_fragment_index ≤ frags.length ∧
  h.current_line_character_index ≤
    ((frags.getD (h.current_line_fragment_index - 1)
      default).characters).length ∧
  truncChars frags h.current_line_fragment_index
      h.current_line_character_index
    = slice mlb.textChars startAbs
        (mlb.absAt h.original_fragment_index h.original_character_index)

/-- The invariant the reconstruction proof carries through the
`get_line_of_given_width` loop, relative to the absolute start position
`startAbs` of the current call: the cursor is well formed and at or after
the start, the accumulated line content is exactly the text consumed
since the start, no hyphen checkpoint is pending (the soft-hyphen-free
hypothesis of the amended claim), any space checkpoint satisfies
`spaceHintInv`, and the accumulated width is zero only when nothing has
been consumed.  -/
def MultiLineBreak.loopInv (mlb : MultiLineBreak) (startAbs f c : ℕ)
    (cl : CurrentLine) : Prop :=
  mlb.cursorOK f c ∧
  startAbs ≤ mlb.absAt f c ∧
  cl.chars = slice mlb.textChars startAbs (mlb.absAt f c) ∧
  cl.hyphen_break_hint = Option.none ∧
  (∀ sh, cl.space_break_hint = Option.some sh →
    spaceHintInv mlb startAbs cl.fragments sh) ∧
  (cl.width = 0 → mlb.absAt f c = startAbs) ∧
  0 ≤ cl.width

/-- What holds of a line returned by `get_line_of_given_width` starting
at absolute position `startAbs`: the resume cursor is well formed and at
or after the start, and the line content plus one elided separator
(empty, a word-space, or a newline) is exactly the text between the
start and the resume position. -/
def lineOK (mlb : MultiLineBreak) (startAbs : ℕ) (line : TextLine)
    (st' : MLBState) : Prop :=
  mlb.cursorOK st'.fragment_index st'.character_index ∧
  startAbs ≤ mlb.absAt st'.fragment_index st'.character_index ∧
  ∃ sep : List Char, (sep = [] ∨ sep = [SPACE] ∨ sep = [NEWLINE]) ∧
    line.chars ++ sep
      = slice mlb.textChars startAbs
          (mlb.absAt st'.fragment_index st'.character_index)

/-! ## Table layout (`fpdf/table.py`)

The seven built-in border policies construct `TableCellStyle` with plain
booleans (table.py lines 329-380), so the `Union[bool, TableBorderStyle]`
fields are modelled as `Bool` here. -/

/-- `class TableCellStyle` field values as built by the seven built-in
layouts (table.py lines 132-137). -/
structure TableCellStyle where
  left : Bool
  bottom : Bool
  right : Bool
  top : Bool
deriving DecidableEq

/-- `TableBordersLayout.ALL.cell_style_getter` (table.py lines 329-333). -/
def TableBordersLayout.ALL_cell_style_getter
    (row_num col_num num_heading_rows num_rows num_cols : ℕ) :
    TableCellStyle :=
  TableCellStyle.mk true true true true

/-- `TableBordersLayout.NONE.cell_style_getter` (table.py lines 335-339). -/
def TableBordersLayout.NONE_cell_style_getter
    (row_num col_num num_heading_rows num_rows num_cols : ℕ) :
    TableCellStyle :=
  TableCellStyle.mk false false false false

/-- `TableBordersLayout.INTERNAL.cell_style_getter` (table.py lines
341-348), keyword arguments resolved onto the `left, bottom, right, top`
fields: `left=col_num > 0`, `bottom=col_num < num_cols - 1`,
`right=row_num < num_rows - 1`, `top=row_num > 0`. -/
def TableBordersLayout.INTERNAL_cell_style_getter
    (row_num col_num num_heading_rows num_rows num_cols : ℕ) :
    TableCellStyle :=
  { left := decide (col_num > 0)
    bottom := decide (col_num < num_cols - 1)
    right := decide (row_num < num_rows - 1)
    top := decide (row_num > 0) }

/-- `TableBordersLayout.MINIMAL.cell_style_getter` (table.py lines
350-357). -/
def TableBordersLayout.MINIMAL_cell_style_getter
    (row_num col_num num_heading_rows num_rows num_cols : ℕ) :
    TableCellStyle :=
  { left := decide (col_num > 0)
    bottom := decide (row_num < num_heading_rows)
    right := decide (col_num < num_cols - 1)
    top := decide (0 < row_num ∧ row_num ≤ num_heading_rows) }

/-- `TableBordersLayout.HORIZONTAL_LINES.cell_style_getter` (table.py
lines 359-363). -/
def TableBordersLayout.HORIZONTAL_LINES_cell_style_getter
    (row_num col_num num_heading_rows num_rows num_cols : ℕ) :
    TableCellStyle :=
  { left := false
    bottom := decide (row_num < num_heading_rows - 1)
    right := false
    top := decide (row_num > 0) }

/-- `TableBordersLayout.NO_HORIZONTAL_LINES.cell_style_getter` (table.py
lines 365-372). -/
def TableBordersLayout.NO_HORIZONTAL_LINES_cell_style_getter
    (row_num col_num num_heading_rows num_rows num_cols : ℕ) :
    TableCellStyle :=
  { left := true
    bottom := decide (row_num = num_rows - 1)
    right := true
    top := decide (row_num ≤ num_heading_rows) }

/-- `TableBordersLayout.SINGLE_TOP_LINE.cell_style_getter` (table.py
lines 373-380). -/
def TableBordersLayout.SINGLE_TOP_LINE_cell_style_getter
    (row_num col_num num_heading_rows num_rows num_cols : ℕ) :
    TableCellStyle :=
  { left := false
    bottom := decide (row_num + 1 ≤ num_heading_rows)
    right := false
    top := false }

/-- The seven layout names, for `Table.get_cell_border` which compares
`self._borders_layout` against them (table.py lines 649-691). -/
inductive BordersLayoutKind where
  | ALL | NONE | INTERNAL | MINIMAL | HORIZONTAL_LINES
  | NO_HORIZONTAL_LINES | SINGLE_TOP_LINE
deriving DecidableEq

/-- Return type of `Table.get_cell_border`: the Python method returns the
int `1`, the int `0`, or a string made of some of the letters L/R/T/B. -/
inductive CellBorder where
  | num (n : ℕ)
  | letters (s : List Char)
deriving DecidableEq

/-- `Table.get_cell_border` (table.py lines 642-692).  `i`/`j` are the row
and column indices; `is_rightmost_column` stands for
`j == self.rows[i].column_indices[-1]`; `rows_count` for
`len(self.rows)`. -/
def Table.get_cell_border (layout : BordersLayoutKind)
    (num_heading_rows rows_count : ℕ) (i j : ℕ)
    (is_rightmost_column : Bool) : CellBorder :=
  if layout = BordersLayoutKind.ALL then CellBorder.num 1
  else if layout = BordersLayoutKind.NONE then CellBorder.num 0
  else
    let border : List Char := ['L', 'R', 'T', 'B']
    let border :=
      if layout = BordersLayoutKind.INTERNAL then
        let border := if i = 0 then border.erase 'T' else border
        let border := if i = rows_count - 1 then border.erase 'B' else border
        let border := if j = 0 then border.erase 'L' else border
        if is_rightmost_column then border.erase 'R' else border
      else border
    let border :=
      if layout = BordersLayoutKind.MINIMAL then
        let border :=
          if i = 0 ∨ i > num_heading_rows ∨ rows_count = 1 then
            border.erase 'T'
          else border
        let border :=
          if i > num_heading_rows - 1 then border.erase 'B' else border
        let border := if j = 0 then border.erase 'L' else border
        if is_rightmost_column then border.erase 'R' else border
      else border
    let border :=
      if layout = BordersLayoutKind.NO_HORIZONTAL_LINES then
        let border := if i > num_heading_rows then border.erase 'T' else border
        if i ≠ rows_count - 1 then border.erase 'B' else border
      else border
    if layout = BordersLayoutKind.HORIZONTAL_LINES then
      if rows_count = 1 then CellBorder.num 0
      else
        let border : List Char := ['T', 'B']
        let border :=
          if i = 0 ∧ 'T' ∈ border then border.erase 'T'
          else if i = rows_count - 1 then border.erase 'B'
          else border
        CellBorder.letters border
    else if layout = BordersLayoutKind.SINGLE_TOP_LINE then
      if rows_count = 1 then CellBorder.num 0
      else if i < num_heading_rows then CellBorder.letters ['B']
      else CellBorder.num 0
    else CellBorder.letters border

/-- The three accepted forms of the `col_widths` option (table.py doc of
`__init__`): `None`, a single number, or a sequence of numbers. -/
inductive ColWidths where
  | noSpec
  | single (w : ℚ)
  | seq (ws : List ℚ)
deriving DecidableEq

/-- `Table._get_col_width` (table.py lines 911-934).  `tableWidth` is
`self._width`, `gutter_width` is `self._gutter_width`, `cols_count` is
`self.rows[i].cols_count`.  `Except.error ()` models both the explicit
`ValueError` for `j >= len(self._col_widths)` (line 925) and the Python
`IndexError`/`ZeroDivisionError` that `self._col_widths[k] /
sum(self._col_widths)` would raise inside the loop. -/
def Table.get_col_width (col_widths : ColWidths) (tableWidth gutter_width : ℚ)
    (cols_count : ℕ) (j : ℕ) (colspan : ℕ) : Except Unit ℚ :=
  let width := tableWidth - (cols_count - 1 : ℕ) * gutter_width
  let gutter_within_cell := max ((colspan - 1 : ℕ) * gutter_width) 0
  match col_widths with
  | ColWidths.noSpec =>
      Except.ok ((colspan : ℚ) * (width / (cols_count : ℚ)) +
        gutter_within_cell)
  | ColWidths.single w =>
      Except.ok ((colspan : ℚ) * w + gutter_within_cell)
  | ColWidths.seq ws =>
      if j ≥ ws.length then Except.error ()
      else
        (List.range colspan).foldlM
          (fun col_width k =>
            match ws.get? (j + k) with
            | Option.none => Except.error ()
            | Option.some wk =>
                if ws.sum = 0 then Except.error ()
                else
                  Except.ok (col_width + wk / ws.sum * width +
                    if k ≠ 0 then gutter_width else 0))
          0

/-- The host (`FPDF`) attributes that `Table.render` reads and writes while
positioning the table (table.py lines 564-618): left margin, cursor x,
page width, right margin and effective page width. -/
structure FPDFHost where
  l_margin : ℚ
  x : ℚ
  w : ℚ
  r_margin : ℚ
  epw : ℚ
deriving DecidableEq

/-- Values of the `align` option relevant to `Table.render`
(`Align.coerce` results: LEFT / CENTER / RIGHT / JUSTIFY). -/
inductive TableAlign where
  | L | C | R | J
deriving DecidableEq

/-- The table configuration read by the positioning phase of
`Table.render`. `headings_font_ok` models the outcome of the
headings-style/font-registry checks of lines 577-589 (a missing
`headings_style` or a missing bold font variant both raise there);
`rows_cols_counts` lists `row.cols_count` for each row. -/
structure TableRenderCfg where
  width : ℚ
  align : TableAlign
  col_widths : ColWidths
  gutter_width : ℚ
  num_heading_rows : ℕ
  headings_font_ok : Bool
  rows_cols_counts : List ℕ
deriving DecidableEq

/-- `Table.render` up to and including the pre-computation of the relative
column x-positions (table.py lines 564-618), which is where a too-short
`col_widths` sequence raises (from `Table._get_col_width`, line 925).
Nothing later in `render` runs when that error is raised, so this phase
determines the host state observed by the caller of `render` when the
error propagates; the error value carries that host state.  Lines 621-640
(the row rendering loop and the margin restoration) are intentionally not
part of this definition: they are never reached on the error path this
development reasons about. -/
def Table.renderPositioningPhase (cfg : TableRenderCfg) (fpdf : FPDFHost) :
    Except FPDFHost (FPDFHost × List ℚ) :=
  -- sanity checks (lines 566-598); each `raise` propagates with the host
  -- state untouched at this point
  if cfg.width > fpdf.epw then Except.error fpdf
  else if cfg.align = TableAlign.J then Except.error fpdf
  else if cfg.num_heading_rows > 0 ∧ ¬cfg.headings_font_ok then
    Except.error fpdf
  else if ¬(cfg.rows_cols_counts.all
      (fun c => c = cfg.rows_cols_counts.headI)) then
    Except.error fpdf
  else
    -- defining table global horizontal position (lines 600-609): the host
    -- margin and cursor are mutated here, before `col_widths` is validated
    let fpdf :=
      match cfg.align with
      | TableAlign.C =>
          { fpdf with l_margin := (fpdf.w - cfg.width) / 2,
                      x := (fpdf.w - cfg.width) / 2 }
      | TableAlign.R =>
          { fpdf with l_margin := fpdf.w - fpdf.r_margin - cfg.width,
                      x := fpdf.w - fpdf.r_margin - cfg.width }
      | _ =>
          if fpdf.x ≠ fpdf.l_margin then { fpdf with l_margin := fpdf.x }
          else fpdf
    -- pre-computing the relative x-positions of the columns (lines
    -- 611-618); `_get_col_width` raises here if `col_widths` is too short
    match cfg.rows_cols_counts.headI with
    | 0 => Except.ok (fpdf, [0])
    | cols_count =>
        match
          (List.range cols_count).foldlM
            (fun (acc : ℚ × List ℚ) i =>
              match Table.get_col_width cfg.col_widths cfg.width
                  cfg.gutter_width cols_count i 1 with
              | Except.error _ => Except.error fpdf
              | Except.ok cw =>
                  let xx := acc.1 + cw + cfg.gutter_width
                  Except.ok (xx, acc.2 ++ [xx]))
            (0, [0]) with
        | Except.error e => Except.error e
        | Except.ok (_, positions) => Except.ok (fpdf, positions)

/-- `class Cell` (table.py lines 1064-1086); `align`, `v_align`, `style`,
`padding` and `link` do not matter to the claims proved here and are kept
as plain strings/options mirroring "some value was given or not". -/
structure Cell where
  text : String
  align : Option String
  v_align : Option String
  style : Option String
  img : Option String
  img_fill_width : Bool
  colspan : ℕ
  padding : Option String
  link : Option String
deriving DecidableEq

/-- The state of `class Row` (table.py lines 995-1015): its cell list and
captured row style (`self.style = fpdf.font_face()`). -/
structure Row where
  cells : List Cell
  style : Option String
deriving DecidableEq

/-- `Row.cols_count` (table.py lines 1003-1005). -/
def Row.cols_count (r : Row) : ℕ :=
  (r.cells.map (fun c => c.colspan)).sum

/-- `Row.cell` (table.py lines 1017-1061).  The result pairs the outcome
(`Except.error ()` models the `NotImplementedError` raise of lines
1047-1051) with the row state after the call, so that the effect of the
call on `self.cells` is observable.  `font_face` is the value of
`self._fpdf.font_face()` at call time. -/
def Row.cell (r : Row) (font_face : Option String) (text : String)
    (align v_align style : Option String) (img : Option String)
    (img_fill_width : Bool) (colspan : ℕ) (padding link : Option String) :
    Except Unit Cell × Row :=
  if text ≠ "" ∧ img.isSome then
    (Except.error (), r)
  else
    let style :=
      if style.isNone then
        if font_face ≠ r.style then font_face else style
      else style
    let cell := Cell.mk text align v_align style img img_fill_width colspan
      padding link
    (Except.ok cell, { r with cells := r.cells ++ [cell] })

/-! ## Generic evaluation lemmas -/

/-- `mapM` over `Except` with pointwise non-failing steps. -/
theorem mapM_ok {α β ε : Type} (f : α → Except ε β) (g : α → β)
    (l : List α) (h : ∀ a ∈ l, f a = Except.ok (g a)) :
    l.mapM f = Except.ok (l.map g) := by
  induction l with
  | nil => rfl
  | cons a l ih =>
      have ha := h a (List.mem_cons_self a l)
      have hl := ih (fun b hb => h b (List.mem_cons_of_mem a hb))
      simp only [List.mapM_cons, ha, hl, List.map_cons]
      rfl

/-- `foldlM` over `Except` whose steps always succeed and add `t a`. -/
theorem foldlM_add_ok {α ε : Type} (f : ℚ → α → Except ε ℚ) (t : α → ℚ)
    (l : List α) (h : ∀ a ∈ l, ∀ acc, f acc a = Except.ok (acc + t a)) :
    ∀ init : ℚ, l.foldlM f init = Except.ok (init + (l.map t).sum) := by
  induction l with
  | nil =>
      intro init
      simp only [List.map_nil, List.sum_nil, add_zero]
      rfl
  | cons a l ih =>
      intro init
      rw [List.foldlM_cons, h a (List.mem_cons_self a l) init]
      exact Eq.trans
        (ih (fun b hb acc => h b (List.mem_cons_of_mem a hb) acc)
          (init + t a))
        (by simp only [List.map_cons, List.sum_cons]; congr 1; ring)

/-- Splitting a sum of pointwise sums of two functions. -/
theorem sum_map_add_split {α : Type} (f g : α → ℚ) (l : List α) :
    (l.map (fun a => f a + g a)).sum = (l.map f).sum + (l.map g).sum := by
  induction l with
  | nil => simp
  | cons a l ih => simp [ih]; ring

/-- The sum of one gutter per non-initial spanned column. -/
theorem sum_gutter_terms (g : ℚ) :
    ∀ n : ℕ, 1 ≤ n →
      ((List.range n).map (fun k => if k ≠ 0 then g else 0)).sum
        = ((n - 1 : ℕ) : ℚ) * g := by
  intro n
  induction n with
  | zero => intro h; exact absurd h (by decide)
  | succ n ih =>
      intro _
      rcases Nat.eq_zero_or_pos n with hn | hn
      · subst hn; simp [List.range_succ]
      · have h1 : 1 ≤ n := hn
        simp only [List.range_succ, List.map_append, List.sum_append,
          List.map_cons, List.map_nil, List.sum_cons, List.sum_nil,
          ih h1]
        have hne : n ≠ 0 := Nat.pos_iff_ne_zero.mp hn
        rw [if_pos hne]
        have : ((n + 1 - 1 : ℕ) : ℚ) = ((n - 1 : ℕ) : ℚ) + 1 := by
          rw [Nat.succ_sub_one]
          rw [Nat.cast_sub h1]
          push_cast
          ring
        rw [this]
        ring

/-- `l.get? n` in terms of `l.getD` when `n` is in bounds. -/
theorem get?_eq_some_getD {α : Type} (l : List α) (n : ℕ) (d : α)
    (h : n < l.length) : l.get? n = Option.some (l.getD n d) := by
  rw [List.getD_eq_getElem?_getD]
  rw [List.get?_eq_getElem?]
  rcases List.getElem?_eq_some_iff.mpr ⟨h, rfl⟩ with h'
  rw [h']
  rfl

/-! ## Line accumulator lemmas -/

theorem fragsChars_append (l₁ l₂ : List Fragment) :
    fragsChars (l₁ ++ l₂) = fragsChars l₁ ++ fragsChars l₂ := by
  simp [fragsChars]

theorem fragsChars_appendToLast (c : Char) (frags : List Fragment)
    (h : frags ≠ []) :
    fragsChars (appendToLast frags c) = fragsChars frags ++ [c] := by
  induction frags with
  | nil => exact absurd rfl h
  | cons f rest ih =>
      cases rest with
      | nil => simp [appendToLast, fragsChars]
      | cons g rest' =>
          have ih' := ih (by simp)
          simp only [appendToLast, fragsChars, List.map_cons,
            List.flatten_cons] at ih' ⊢
          rw [ih']
          simp [List.append_assoc]

theorem fragmentsForAdd_ne_nil (cl : CurrentLine) (ff : String) (fs : ℚ)
    (fst : String) (ul : Bool) (str : ℚ) :
    cl.fragmentsForAdd ff fs fst ul str ≠ [] := by
  unfold CurrentLine.fragmentsForAdd
  split
  · simp
  · rename_i last heq
    split
    · simp
    · intro hnil
      rw [hnil] at heq
      simp at heq

theorem fragsChars_fragmentsForAdd (cl : CurrentLine) (ff : String) (fs : ℚ)
    (fst : String) (ul : Bool) (str : ℚ) :
    fragsChars (cl.fragmentsForAdd ff fs fst ul str)
      = fragsChars cl.fragments := by
  unfold CurrentLine.fragmentsForAdd
  split
  · rename_i heq
    have hnil : cl.fragments = [] := List.getLast?_eq_none_iff.mp heq
    rw [hnil]
    simp [fragsChars]
  · split
    · rw [fragsChars_append]
      simp [fragsChars]
    · rfl

/-- `add_character` keeps the `print_sh` flag. -/
theorem add_character_print_sh (cl : CurrentLine) (c : Char) (cw : ℚ)
    (ff : String) (fs : ℚ) (fst : String) (ul : Bool) (str : ℚ)
    (ofi oci : ℕ) :
    (cl.add_character c cw ff fs fst ul str ofi oci).print_sh
      = cl.print_sh := by
  unfold CurrentLine.add_character
  split_ifs <;> rfl

/-- The width bookkeeping of `add_character`: width grows by the measured
width exactly when the character is kept (line_break.py lines 184-186). -/
theorem add_character_width (cl : CurrentLine) (c : Char) (cw : ℚ)
    (ff : String) (fs : ℚ) (fst : String) (ul : Bool) (str : ℚ)
    (ofi oci : ℕ) :
    (cl.add_character c cw ff fs fst ul str ofi oci).width
      = if c ≠ SOFT_HYPHEN ∨ cl.print_sh = true then cl.width + cw
        else cl.width := by
  unfold CurrentLine.add_character
  split_ifs with h1 h2 h3 <;> rfl

/-- The character bookkeeping of `add_character`: the kept character is
appended at the end of the line content. -/
theorem add_character_chars (cl : CurrentLine) (c : Char) (cw : ℚ)
    (ff : String) (fs : ℚ) (fst : String) (ul : Bool) (str : ℚ)
    (ofi oci : ℕ) :
    (cl.add_character c cw ff fs fst ul str ofi oci).chars
      = if c ≠ SOFT_HYPHEN ∨ cl.print_sh = true then cl.chars ++ [c]
        else cl.chars := by
  unfold CurrentLine.add_character CurrentLine.chars
  split_ifs with h1 h2 h3 <;>
    first
      | rw [fragsChars_appendToLast c _ (fragmentsForAdd_ne_nil cl ff fs fst
            ul str), fragsChars_fragmentsForAdd]
      | rw [fragsChars_fragmentsForAdd]

/-- The space bookkeeping of `add_character`. -/
theorem add_character_nspaces (cl : CurrentLine) (c : Char) (cw : ℚ)
    (ff : String) (fs : ℚ) (fst : String) (ul : Bool) (str : ℚ)
    (ofi oci : ℕ) :
    (cl.add_character c cw ff fs fst ul str ofi oci).number_of_spaces
      = if c = SPACE then cl.number_of_spaces + 1
        else cl.number_of_spaces := by
  unfold CurrentLine.add_character
  split_ifs <;> rfl

/-- The line produced by `manual_break` carries the accumulator's
characters, width and space count unchanged. -/
theorem manual_break_fields (cl : CurrentLine) (justify trailing_nl : Bool) :
    (cl.manual_break justify trailing_nl).chars = cl.chars ∧
    (cl.manual_break justify trailing_nl).text_width = cl.width ∧
    (cl.manual_break justify trailing_nl).number_of_spaces_between_words
      = cl.number_of_spaces ∧
    (cl.manual_break justify trailing_nl).justify
      = (decide (cl.number_of_spaces > 0) && justify) ∧
    (cl.manual_break justify trailing_nl).trailing_nl = trailing_nl := by
  refine ⟨rfl, rfl, rfl, rfl, rfl⟩

/-- The space-hint bookkeeping of `add_character` (line_break.py lines
157-166). -/
theorem add_character_space_hint (cl : CurrentLine) (c : Char) (cw : ℚ)
    (ff : String) (fs : ℚ) (fst : String) (ul : Bool) (str : ℚ)
    (ofi oci : ℕ) :
    (cl.add_character c cw ff fs fst ul str ofi oci).space_break_hint
      = if c = SPACE then
          Option.some (SpaceHint.mk ofi oci
            (cl.fragmentsForAdd ff fs fst ul str).length
            (((cl.fragmentsForAdd ff fs fst ul str).getLast?.map
              (fun f => f.characters.length)).getD 0)
            cl.width cl.number_of_spaces)
        else cl.space_break_hint := by
  unfold CurrentLine.add_character
  split_ifs <;> rfl

/-- The hyphen-hint bookkeeping of `add_character` (line_break.py lines
167-182). -/
theorem add_character_hyphen_hint (cl : CurrentLine) (c : Char) (cw : ℚ)
    (ff : String) (fs : ℚ) (fst : String) (ul : Bool) (str : ℚ)
    (ofi oci : ℕ) :
    (cl.add_character c cw ff fs fst ul str ofi oci).hyphen_break_hint
      = if c = SOFT_HYPHEN ∧ cl.print_sh = false then
          Option.some (HyphenHint.mk ofi oci
            (cl.fragmentsForAdd ff fs fst ul str).length
            (((cl.fragmentsForAdd ff fs fst ul str).getLast?.map
              (fun f => f.characters.length)).getD 0)
            cl.width cl.number_of_spaces HYPHEN cw ff fs fst ul str)
        else cl.hyphen_break_hint := by
  unfold CurrentLine.add_character
  have hsp : SOFT_HYPHEN ≠ SPACE := by decide
  split_ifs with h1 h2 h3 h4 <;>
    first
      | rfl
      | (exfalso; simp_all [hsp])

/-- The fields of `applyHint` (= `_apply_automatic_hint`). -/
theorem applyHint_fields (cl : CurrentLine) (a b n : ℕ) (w : ℚ) :
    (cl.applyHint a b n w).chars = truncChars cl.fragments a b ∧
    (cl.applyHint a b n w).width = w ∧
    (cl.applyHint a b n w).number_of_spaces = n ∧
    (cl.applyHint a b n w).print_sh = cl.print_sh := by
  exact ⟨rfl, rfl, rfl, rfl⟩

/-! ## Step lemmas for the `get_line_of_given_width` loop

One lemma per branch of the loop body (line_break.py lines 280-341),
each under the exact conditions that select that branch. -/

section LineLoopSteps

variable (mlb : MultiLineBreak) (maxW : ℚ) (ws : Bool) (saved : Option ℕ)
variable (startF startC fuel fragIdx charIdx : ℕ) (cl : CurrentLine)

/-- Loop exit with accumulated width (lines 340-341). -/
theorem lineLoop_step_exit_line
    (hf : ¬fragIdx < mlb.styled_text_fragments.length)
    (hw : cl.width ≠ 0) :
    MultiLineBreak.lineLoop mlb maxW ws saved startF startC (fuel + 1)
      fragIdx charIdx cl
    = Option.some (Except.ok (Option.some (cl.manual_break false false),
        MLBState.mk fragIdx charIdx Option.none)) := by
  rw [MultiLineBreak.lineLoop]
  simp only [if_neg hf, if_pos hw]

/-- Loop exit with an empty width: the Python function returns `None`,
the "no more lines" sentinel (fall-through after line 341). -/
theorem lineLoop_step_exit_sentinel
    (hf : ¬fragIdx < mlb.styled_text_fragments.length)
    (hw : ¬cl.width ≠ 0) :
    MultiLineBreak.lineLoop mlb maxW ws saved startF startC (fuel + 1)
      fragIdx charIdx cl
    = Option.some (Except.ok (Option.none,
        MLBState.mk fragIdx charIdx Option.none)) := by
  rw [MultiLineBreak.lineLoop]
  simp only [if_neg hf, if_neg hw]

/-- Fragment exhausted: move to the next fragment (lines 284-287). -/
theorem lineLoop_step_skip
    (hf : fragIdx < mlb.styled_text_fragments.length)
    (hc : ¬charIdx < (mlb.fragAt fragIdx).characters.length) :
    MultiLineBreak.lineLoop mlb maxW ws saved startF startC (fuel + 1)
      fragIdx charIdx cl
    = MultiLineBreak.lineLoop mlb maxW ws saved startF startC fuel
        (fragIdx + 1) 0 cl := by
  rw [MultiLineBreak.lineLoop]
  simp only [if_pos hf, if_neg hc]

/-- Explicit line break (lines 294-296). -/
theorem lineLoop_step_newline
    (hf : fragIdx < mlb.styled_text_fragments.length)
    (hc : charIdx < (mlb.fragAt fragIdx).characters.length)
    (hn : mlb.charAt fragIdx charIdx = NEWLINE) :
    MultiLineBreak.lineLoop mlb maxW ws saved startF startC (fuel + 1)
      fragIdx charIdx cl
    = Option.some (Except.ok (Option.some (cl.manual_break false true),
        MLBState.mk fragIdx (charIdx + 1) Option.none)) := by
  rw [MultiLineBreak.lineLoop]
  simp only [if_pos hf, if_pos hc, if_pos hn]

/-- Overflowing word-space: break before it, consume it (lines 299-301). -/
theorem lineLoop_step_space_break
    (hf : fragIdx < mlb.styled_text_fragments.length)
    (hc : charIdx < (mlb.fragAt fragIdx).characters.length)
    (hn : ¬mlb.charAt fragIdx charIdx = NEWLINE)
    (hov : cl.width + mlb.widthAt fragIdx charIdx > maxW)
    (hsp : mlb.charAt fragIdx charIdx = SPACE) :
    MultiLineBreak.lineLoop mlb maxW ws saved startF startC (fuel + 1)
      fragIdx charIdx cl
    = Option.some (Except.ok
        (Option.some (cl.manual_break mlb.justify false),
          MLBState.mk fragIdx (charIdx + 1) Option.none)) := by
  rw [MultiLineBreak.lineLoop]
  simp only [if_pos hf, if_pos hc, if_neg hn, if_pos hov, if_pos hsp]

/-- Overflow with a rollback checkpoint available (lines 302-309). -/
theorem lineLoop_step_auto
    (hf : fragIdx < mlb.styled_text_fragments.length)
    (hc : charIdx < (mlb.fragAt fragIdx).characters.length)
    (hn : ¬mlb.charAt fragIdx charIdx = NEWLINE)
    (hov : cl.width + mlb.widthAt fragIdx charIdx > maxW)
    (hsp : ¬mlb.charAt fragIdx charIdx = SPACE)
    (hab : cl.automatic_break_possible = true)
    (fi ci : ℕ) (line : TextLine)
    (habr : cl.automatic_break mlb.justify = Option.some (fi, ci, line)) :
    MultiLineBreak.lineLoop mlb maxW ws saved startF startC (fuel + 1)
      fragIdx charIdx cl
    = Option.some (Except.ok (Option.some line,
        MLBState.mk fi (ci + 1) Option.none)) := by
  rw [MultiLineBreak.lineLoop]
  simp only [if_pos hf, if_pos hc, if_neg hn, if_pos hov, if_neg hsp,
    if_pos hab, habr]

/-- Overflow, no checkpoint, word-splitting disallowed: roll back to the
call entry position and return an empty line (lines 310-312 and
334-339). -/
theorem lineLoop_step_nosplit
    (hf : fragIdx < mlb.styled_text_fragments.length)
    (hc : charIdx < (mlb.fragAt fragIdx).characters.length)
    (hn : ¬mlb.charAt fragIdx charIdx = NEWLINE)
    (hov : cl.width + mlb.widthAt fragIdx charIdx > maxW)
    (hsp : ¬mlb.charAt fragIdx charIdx = SPACE)
    (hab : ¬cl.automatic_break_possible = true)
    (hws : ¬ws = true) :
    MultiLineBreak.lineLoop mlb maxW ws saved startF startC (fuel + 1)
      fragIdx charIdx cl
    = Option.some (Except.ok
        (Option.some ((CurrentLine.init false).manual_break mlb.justify
          false), MLBState.mk startF startC Option.none)) := by
  rw [MultiLineBreak.lineLoop]
  simp only [if_pos hf, if_pos hc, if_neg hn, if_pos hov, if_neg hsp,
    if_neg hab, if_pos hws]

/-- Overflow, no checkpoint, second consecutive failure at the same
character index: the fatal `FPDFException` (lines 313-316). -/
theorem lineLoop_step_error
    (hf : fragIdx < mlb.styled_text_fragments.length)
    (hc : charIdx < (mlb.fragAt fragIdx).characters.length)
    (hn : ¬mlb.charAt fragIdx charIdx = NEWLINE)
    (hov : cl.width + mlb.widthAt fragIdx charIdx > maxW)
    (hsp : ¬mlb.charAt fragIdx charIdx = SPACE)
    (hab : ¬cl.automatic_break_possible = true)
    (hws : ws = true)
    (hsv : saved = Option.some charIdx) :
    MultiLineBreak.lineLoop mlb maxW ws saved startF startC (fuel + 1)
      fragIdx charIdx cl
    = Option.some (Except.error ()) := by
  rw [MultiLineBreak.lineLoop]
  simp only [if_pos hf, if_pos hc, if_neg hn, if_pos hov, if_neg hsp,
    if_neg hab, hws, if_pos hsv]
  simp

/-- Overflow, no checkpoint, first failure here: forced manual break
without advancing the cursor (lines 317-318). -/
theorem lineLoop_step_forced
    (hf : fragIdx < mlb.styled_text_fragments.length)
    (hc : charIdx < (mlb.fragAt fragIdx).characters.length)
    (hn : ¬mlb.charAt fragIdx charIdx = NEWLINE)
    (hov : cl.width + mlb.widthAt fragIdx charIdx > maxW)
    (hsp : ¬mlb.charAt fragIdx charIdx = SPACE)
    (hab : ¬cl.automatic_break_possible = true)
    (hws : ws = true)
    (hsv : ¬saved = Option.some charIdx) :
    MultiLineBreak.lineLoop mlb maxW ws saved startF startC (fuel + 1)
      fragIdx charIdx cl
    = Option.some (Except.ok (Option.some (cl.manual_break false false),
        MLBState.mk fragIdx charIdx (Option.some charIdx))) := by
  rw [MultiLineBreak.lineLoop]
  simp only [if_pos hf, if_pos hc, if_neg hn, if_pos hov, if_neg hsp,
    if_neg hab, hws, if_neg hsv]
  simp

/-- The character fits: append it and continue (lines 320-332). -/
theorem lineLoop_step_add
    (hf : fragIdx < mlb.styled_text_fragments.length)
    (hc : charIdx < (mlb.fragAt fragIdx).characters.length)
    (hn : ¬mlb.charAt fragIdx charIdx = NEWLINE)
    (hov : ¬cl.width + mlb.widthAt fragIdx charIdx > maxW) :
    MultiLineBreak.lineLoop mlb maxW ws saved startF startC (fuel + 1)
      fragIdx charIdx cl
    = MultiLineBreak.lineLoop mlb maxW ws saved startF startC fuel
        fragIdx (charIdx + 1)
        (cl.add_character (mlb.charAt fragIdx charIdx)
          (mlb.widthAt fragIdx charIdx)
          (mlb.fragAt fragIdx).font_family
          (mlb.fragAt fragIdx).font_size_pt
          (mlb.fragAt fragIdx).font_style
          (mlb.fragAt fragIdx).underline
          (mlb.fragAt fragIdx).font_stretching
          fragIdx charIdx) := by
  rw [MultiLineBreak.lineLoop]
  simp only [if_pos hf, if_pos hc, if_neg hn, if_neg hov]

end LineLoopSteps

/-! ## Lemmas about `manual_break` and `automatic_break` results -/

/-- A line finalized by `manual_break` is justified only if its recorded
space count is positive (line_break.py line 205). -/
theorem manual_break_justify_imp (cl : CurrentLine) (j nl : Bool) :
    (cl.manual_break j nl).justify = true →
    0 < (cl.manual_break j nl).number_of_spaces_between_words := by
  simp only [CurrentLine.manual_break, Bool.and_eq_true, decide_eq_true_eq]
  exact fun h => h.1

/-- A line finalized with `justify=False` is never justified. -/
theorem manual_break_justify_false (cl : CurrentLine) (nl : Bool) :
    (cl.manual_break false nl).justify = false := by
  simp [CurrentLine.manual_break]

/-- When a rollback checkpoint exists, `automatic_break` yields a
result. -/
theorem automatic_break_isSome (cl : CurrentLine) (j : Bool)
    (h : cl.automatic_break_possible = true) :
    ∃ fi ci line, cl.automatic_break j = Option.some (fi, ci, line) := by
  unfold CurrentLine.automatic_break_possible at h
  cases hh : cl.hyphen_break_hint with
  | some a =>
      cases hs : cl.space_break_hint with
      | some b =>
          by_cases hgt : a.width > b.width
          · refine ⟨(cl.hyphenBreakResult a j).1,
              (cl.hyphenBreakResult a j).2.1,
              (cl.hyphenBreakResult a j).2.2, ?_⟩
            simp only [CurrentLine.automatic_break, hh, hs]
            rw [if_pos hgt]
          · refine ⟨b.original_fragment_index, b.original_character_index,
              (cl.applyHint b.current_line_fragment_index
                b.current_line_character_index b.number_of_spaces
                b.width).manual_break j, ?_⟩
            simp only [CurrentLine.automatic_break, hh, hs]
            rw [if_neg hgt]
      | none =>
          refine ⟨(cl.hyphenBreakResult a j).1,
            (cl.hyphenBreakResult a j).2.1,
            (cl.hyphenBreakResult a j).2.2, ?_⟩
          simp only [CurrentLine.automatic_break, hh, hs]
  | none =>
      cases hs : cl.space_break_hint with
      | some b =>
          refine ⟨b.original_fragment_index, b.original_character_index,
            (cl.applyHint b.current_line_fragment_index
              b.current_line_character_index b.number_of_spaces
              b.width).manual_break j, ?_⟩
          simp only [CurrentLine.automatic_break, hh, hs]
      | none => rw [hh, hs] at h; simp at h

/-- Every line produced by `automatic_break` goes through `manual_break`,
so it is justified only with a positive space count. -/
theorem automatic_break_justify_imp (cl : CurrentLine) (j : Bool)
    (fi ci : ℕ) (line : TextLine)
    (h : cl.automatic_break j = Option.some (fi, ci, line)) :
    line.justify = true → 0 < line.number_of_spaces_between_words := by
  intro hj
  cases hh : cl.hyphen_break_hint with
  | some a =>
      cases hs : cl.space_break_hint with
      | some b =>
          simp only [CurrentLine.automatic_break, hh, hs] at h
          split at h
          · have h' := Option.some.inj h
            have hline : (CurrentLine.hyphenBreakResult cl a j).2.2 = line :=
              by rw [h']
            rw [← hline] at hj ⊢
            exact manual_break_justify_imp _ j false hj
          · have h' := Option.some.inj h
            have hline :
                ((b.original_fragment_index, b.original_character_index,
                  (cl.applyHint b.current_line_fragment_index
                    b.current_line_character_index b.number_of_spaces
                    b.width).manual_break j) :
                  ℕ × ℕ × TextLine).2.2 = line := by rw [h']
            rw [← hline] at hj ⊢
            exact manual_break_justify_imp _ j false hj
      | none =>
          simp only [CurrentLine.automatic_break, hh, hs] at h
          have h' := Option.some.inj h
          have hline : (CurrentLine.hyphenBreakResult cl a j).2.2 = line :=
            by rw [h']
          rw [← hline] at hj ⊢
          exact manual_break_justify_imp _ j false hj
  | none =>
      cases hs : cl.space_break_hint with
      | some b =>
          simp only [CurrentLine.automatic_break, hh, hs] at h
          have h' := Option.some.inj h
          have hline :
              ((b.original_fragment_index, b.original_character_index,
                (cl.applyHint b.current_line_fragment_index
                  b.current_line_character_index b.number_of_spaces
                  b.width).manual_break j) :
                ℕ × ℕ × TextLine).2.2 = line := by rw [h']
          rw [← hline] at hj ⊢
          exact manual_break_justify_imp _ j false hj
      | none =>
          simp only [CurrentLine.automatic_break, hh, hs] at h
          simp at h

/-- `automatic_break` resumes at the original source position recorded in
one of the two hints. -/
theorem automatic_break_resume (cl : CurrentLine) (j : Bool) (fi ci : ℕ)
    (line : TextLine)
    (h : cl.automatic_break j = Option.some (fi, ci, line)) :
    (∃ hh, cl.hyphen_break_hint = Option.some hh ∧
      fi = hh.original_fragment_index ∧ ci = hh.original_character_index) ∨
    (∃ sh, cl.space_break_hint = Option.some sh ∧
      fi = sh.original_fragment_index ∧ ci = sh.original_character_index) := by
  cases hh : cl.hyphen_break_hint with
  | some a =>
      cases hs : cl.space_break_hint with
      | some b =>
          simp only [CurrentLine.automatic_break, hh, hs] at h
          split at h
          · have h' := (Option.some.inj h).symm
            exact Or.inl ⟨a, rfl, congrArg Prod.fst h',
              congrArg (fun p => p.2.1) h'⟩
          · have h' := (Option.some.inj h).symm
            exact Or.inr ⟨b, rfl, congrArg Prod.fst h',
              congrArg (fun p => p.2.1) h'⟩
      | none =>
          simp only [CurrentLine.automatic_break, hh, hs] at h
          have h' := (Option.some.inj h).symm
          exact Or.inl ⟨a, rfl, congrArg Prod.fst h',
            congrArg (fun p => p.2.1) h'⟩
  | none =>
      cases hs : cl.space_break_hint with
      | some b =>
          simp only [CurrentLine.automatic_break, hh, hs] at h
          have h' := (Option.some.inj h).symm
          exact Or.inr ⟨b, rfl, congrArg Prod.fst h',
            congrArg (fun p => p.2.1) h'⟩
      | none =>
          simp only [CurrentLine.automatic_break, hh, hs] at h
          simp at h

/-- Packaging for return paths whose line is unjustified. -/
theorem unjustified_conclusions (l : TextLine) (hl : l.justify = false)
    (L : ℕ) (st : MLBState) :
    (l.justify = true → 0 < l.number_of_spaces_between_words) ∧
    (st.fragment_index = L → l.justify = false) :=
  ⟨fun h => absurd h (by rw [hl]; simp), fun _ => hl⟩

/-- Invariant proof for claim C2: every line the loop returns is
justified only with a positive space count, and a line returned because
the input was exhausted (final cursor at the fragment count) is never
justified.  The two hypotheses on `cl` say that any recorded hint points
into the fragment list; they hold for the fresh accumulator of each call
and are maintained by `add_character`. -/
theorem lineLoop_justify_invariant (mlb : MultiLineBreak) (maxW : ℚ)
    (ws : Bool) (saved : Option ℕ) (startF startC : ℕ) :
    ∀ (fuel fragIdx charIdx : ℕ) (cl : CurrentLine),
      (∀ sh, cl.space_break_hint = Option.some sh →
        sh.original_fragment_index < mlb.styled_text_fragments.length) →
      (∀ hh, cl.hyphen_break_hint = Option.some hh →
        hh.original_fragment_index < mlb.styled_text_fragments.length) →
      ∀ line st',
        MultiLineBreak.lineLoop mlb maxW ws saved startF startC fuel fragIdx
          charIdx cl = Option.some (Except.ok (Option.some line, st')) →
        (line.justify = true → 0 < line.number_of_spaces_between_words) ∧
        (st'.fragment_index = mlb.styled_text_fragments.length →
          line.justify = false) := by
  intro fuel
  induction fuel with
  | zero =>
      intro fragIdx charIdx cl _ _ line st' h
      rw [MultiLineBreak.lineLoop] at h
      exact absurd h (by simp)
  | succ fuel ih =>
      intro fragIdx charIdx cl hsp hhy line st' h
      by_cases hf : fragIdx < mlb.styled_text_fragments.length
      · by_cases hcc : charIdx < (mlb.fragAt fragIdx).characters.length
        · by_cases hn : mlb.charAt fragIdx charIdx = NEWLINE
          · rw [lineLoop_step_newline mlb maxW ws saved startF startC fuel
              fragIdx charIdx cl hf hcc hn] at h
            simp only [Option.some.injEq, Except.ok.injEq,
              Prod.mk.injEq] at h
            obtain ⟨h1, h2⟩ := h
            subst h1
            exact unjustified_conclusions _
              (manual_break_justify_false cl true) _ _
          · by_cases hov :
                cl.width + mlb.widthAt fragIdx charIdx > maxW
            · by_cases hspc : mlb.charAt fragIdx charIdx = SPACE
              · rw [lineLoop_step_space_break mlb maxW ws saved startF
                  startC fuel fragIdx charIdx cl hf hcc hn hov hspc] at h
                simp only [Option.some.injEq, Except.ok.injEq,
                  Prod.mk.injEq] at h
                obtain ⟨h1, h2⟩ := h
                subst h1
                subst h2
                refine ⟨manual_break_justify_imp cl mlb.justify false, ?_⟩
                intro hfl
                exact absurd hfl (by simp; omega)
              · by_cases hab : cl.automatic_break_possible = true
                · obtain ⟨fi, ci, lineA, habr⟩ :=
                    automatic_break_isSome cl mlb.justify hab
                  rw [lineLoop_step_auto mlb maxW ws saved startF startC
                    fuel fragIdx charIdx cl hf hcc hn hov hspc hab fi ci
                    lineA habr] at h
                  simp only [Option.some.injEq, Except.ok.injEq,
                    Prod.mk.injEq] at h
                  obtain ⟨h1, h2⟩ := h
                  subst h1
                  subst h2
                  refine ⟨automatic_break_justify_imp cl mlb.justify fi ci
                    _ habr, ?_⟩
                  intro hfl
                  simp only [] at hfl
                  exfalso
                  rcases automatic_break_resume cl mlb.justify fi ci _ habr
                    with ⟨hh', hsome, hfi, _⟩ | ⟨sh', hsome, hfi, _⟩
                  · have := hhy hh' hsome
                    omega
                  · have := hsp sh' hsome
                    omega
                · by_cases hws : ws = true
                  · by_cases hsv : saved = Option.some charIdx
                    · rw [lineLoop_step_error mlb maxW ws saved startF
                        startC fuel fragIdx charIdx cl hf hcc hn hov hspc
                        hab hws hsv] at h
                      exact absurd h (by simp)
                    · rw [lineLoop_step_forced mlb maxW ws saved startF
                        startC fuel fragIdx charIdx cl hf hcc hn hov hspc
                        hab hws hsv] at h
                      simp only [Option.some.injEq, Except.ok.injEq,
                        Prod.mk.injEq] at h
                      obtain ⟨h1, h2⟩ := h
                      subst h1
                      exact unjustified_conclusions _
                        (manual_break_justify_false cl false) _ _
                  · rw [lineLoop_step_nosplit mlb maxW ws saved startF
                      startC fuel fragIdx charIdx cl hf hcc hn hov hspc
                      hab hws] at h
                    simp only [Option.some.injEq, Except.ok.injEq,
                      Prod.mk.injEq] at h
                    obtain ⟨h1, h2⟩ := h
                    subst h1
                    exact unjustified_conclusions _
                      (by simp [CurrentLine.init, CurrentLine.manual_break])
                      _ _
            · rw [lineLoop_step_add mlb maxW ws saved startF startC fuel
                fragIdx charIdx cl hf hcc hn hov] at h
              refine ih fragIdx (charIdx + 1) _ ?_ ?_ line st' h
              · intro sh' hsome
                rw [add_character_space_hint] at hsome
                by_cases hspc : mlb.charAt fragIdx charIdx = SPACE
                · rw [if_pos hspc] at hsome
                  cases Option.some.inj hsome
                  exact hf
                · rw [if_neg hspc] at hsome
                  exact hsp sh' hsome
              · intro hh' hsome
                rw [add_character_hyphen_hint] at hsome
                by_cases hshc : mlb.charAt fragIdx charIdx = SOFT_HYPHEN ∧
                    cl.print_sh = false
                · rw [if_pos hshc] at hsome
                  cases Option.some.inj hsome
                  exact hf
                · rw [if_neg hshc] at hsome
                  exact hhy hh' hsome
        · rw [lineLoop_step_skip mlb maxW ws saved startF startC fuel
            fragIdx charIdx cl hf hcc] at h
          exact ih (fragIdx + 1) 0 cl hsp hhy line st' h
      · by_cases hw : cl.width ≠ 0
        · rw [lineLoop_step_exit_line mlb maxW ws saved startF startC fuel
            fragIdx charIdx cl hf hw] at h
          simp only [Option.some.injEq, Except.ok.injEq,
            Prod.mk.injEq] at h
          obtain ⟨h1, h2⟩ := h
          subst h1
          exact unjustified_conclusions _
            (manual_break_justify_false cl false) _ _
        · rw [lineLoop_step_exit_sentinel mlb maxW ws saved startF startC
            fuel fragIdx charIdx cl hf hw] at h
          exact absurd h (by simp)

/-! ## Claim C2 — the justify flag -/

/-- **C2 counterexample.**  The claim says the last line returned before
the "no more lines" sentinel always has its justify flag false.  With
justification requested, runs `"a b "` (all character widths 1) and a
single query of width 3, the trailing space overflows, the driver takes
the space-break path (line_break.py lines 299-301) and returns the line
`"a b"` with `justify = True`; the next query returns the sentinel.  So
the last line produced is justified. -/
theorem C2_counterexample_justified_last_line :
    (MultiLineBreak.mk
        [Fragment.mk "helvetica" 12 "" false 100 ['a', ' ', 'b', ' ']]
        (fun _ _ => 1) true false).runQueries 20 [(3, true), (3, true)]
        (MLBState.mk 0 0 Option.none)
      = Option.some (Except.ok
          ([TextLine.mk [Fragment.mk "helvetica" 12 "" false 100
              ['a', ' ', 'b']] 3 1 true false],
            true, MLBState.mk 1 0 Option.none)) := by
  decide

/-- **C2 amended.**  Every line returned by `get_line_of_given_width`
has its justify flag true only when its interior word-space count is
positive; and a line produced at input exhaustion (the returned cursor
sits at the end of the fragment list) is never justified.  (The original
claim's stronger "the last line before the sentinel is never justified"
is refuted by `C2_counterexample_justified_last_line`: a final line
consumed through the overflowing-space path keeps `justify` set.) -/
theorem C2_justify_flag (mlb : MultiLineBreak) (st : MLBState) (maxW : ℚ)
    (ws : Bool) (fuel : ℕ) (line : TextLine) (st' : MLBState)
    (h : mlb.get_line_of_given_width st maxW ws fuel
      = Option.some (Except.ok (Option.some line, st'))) :
    (line.justify = true → 0 < line.number_of_spaces_between_words) ∧
    (st'.fragment_index = mlb.styled_text_fragments.length →
      line.justify = false) := by
  unfold MultiLineBreak.get_line_of_given_width at h
  by_cases he : st.fragment_index = mlb.styled_text_fragments.length
  · rw [if_pos he] at h
    exact absurd h (by simp)
  · rw [if_neg he] at h
    exact lineLoop_justify_invariant mlb maxW ws
      st.char_index_for_last_forced_manual_break st.fragment_index
      st.character_index fuel st.fragment_index st.character_index
      (CurrentLine.init mlb.print_sh)
      (by intro sh hs; simp [CurrentLine.init] at hs)
      (by intro hh hs; simp [CurrentLine.init] at hs)
      line st' h

/-- Witness for `C2_justify_flag` on the run `"ab"` (widths 1, query
width 10): the returned line is unjustified and the cursor ends at the
fragment count. -/
theorem C2_witness :
    ((TextLine.mk [Fragment.mk "helvetica" 12 "" false 100 ['a', 'b']]
        2 0 false false).justify = true →
      0 < (TextLine.mk [Fragment.mk "helvetica" 12 "" false 100
        ['a', 'b']] 2 0 false false).number_of_spaces_between_words) ∧
    ((MLBState.mk 1 0 Option.none).fragment_index
        = (MultiLineBreak.mk
            [Fragment.mk "helvetica" 12 "" false 100 ['a', 'b']]
            (fun _ _ => 1) false false).styled_text_fragments.length →
      (TextLine.mk [Fragment.mk "helvetica" 12 "" false 100 ['a', 'b']]
        2 0 false false).justify = false) :=
  C2_justify_flag
    (MultiLineBreak.mk [Fragment.mk "helvetica" 12 "" false 100 ['a', 'b']]
      (fun _ _ => 1) false false)
    (MLBState.mk 0 0 Option.none) 10 true 20
    (TextLine.mk [Fragment.mk "helvetica" 12 "" false 100 ['a', 'b']] 2 0
      false false)
    (MLBState.mk 1 0 Option.none) (by decide)

/-! ## Position and slice lemmas for the reconstruction proof -/

theorem getElem?_eq_some_getD {α : Type} (l : List α) (n : ℕ) (d : α)
    (h : n < l.length) : l[n]? = Option.some (l.getD n d) := by
  rw [List.getD_eq_getElem?_getD]
  rcases List.getElem?_eq_some_iff.mpr ⟨h, rfl⟩ with h'
  rw [h']
  rfl

theorem absPos_char_succ (frags : List Fragment) (f c : ℕ) :
    absPos frags f (c + 1) = absPos frags f c + 1 := rfl

theorem absPos_frag_succ (frags : List Fragment) (f : ℕ)
    (h : f < frags.length) :
    absPos frags (f + 1) 0
      = absPos frags f (frags.getD f default).characters.length := by
  unfold absPos
  rw [List.take_succ, getElem?_eq_some_getD frags f default h]
  simp

theorem fragsChars_length (frags : List Fragment) :
    (fragsChars frags).length = absPos frags frags.length 0 := by
  simp [fragsChars, absPos, List.length_flatten, List.map_map,
    Function.comp_def]

theorem absPos_le_total (frags : List Fragment) (f c : ℕ)
    (h1 : f ≤ frags.length)
    (h2 : f < frags.length → c ≤ (frags.getD f default).characters.length)
    (h3 : f = frags.length → c = 0) :
    absPos frags f c ≤ (fragsChars frags).length := by
  rw [fragsChars_length]
  rcases Nat.lt_or_ge f frags.length with hf | hf
  · unfold absPos
    rw [List.take_length]
    conv_rhs => rw [← List.take_append_drop f frags]
    rw [List.map_append, List.sum_append]
    have hdrop : frags.drop f = frags.getD f default :: frags.drop (f + 1) := by
      rw [List.drop_eq_getElem_cons hf]
      congr 1
      have := getElem?_eq_some_getD frags f default hf
      rw [List.getElem?_eq_some_iff] at this
      obtain ⟨_, heq⟩ := this
      exact heq
    rw [hdrop]
    simp only [List.map_cons, List.sum_cons, Nat.add_zero]
    have := h2 hf
    omega
  · have hfe : f = frags.length := le_antisymm h1 hf
    rw [hfe, h3 hfe]

theorem absPos_lt_total (frags : List Fragment) (f c : ℕ)
    (h1 : f < frags.length)
    (h2 : c < (frags.getD f default).characters.length) :
    absPos frags f c < (fragsChars frags).length := by
  have := absPos_le_total frags f (c + 1) (le_of_lt h1) (fun _ => h2)
    (fun he => absurd he (Nat.ne_of_lt h1))
  rw [absPos_char_succ] at this
  omega

theorem fragsChars_getElem? (frags : List Fragment) :
    ∀ (f c : ℕ), f < frags.length →
      c < (frags.getD f default).characters.length →
      (fragsChars frags)[absPos frags f c]?
        = Option.some ((frags.getD f default).characters.getD c
            '\u0000') := by
  induction frags with
  | nil => intro f c hf _; simp at hf
  | cons fr rest ih =>
      intro f c hf hc
      cases f with
      | zero =>
          have habs : absPos (fr :: rest) 0 c = c := by
            unfold absPos
            simp
          rw [habs]
          have hfrag : (fr :: rest).getD 0 default = fr := rfl
          rw [hfrag] at hc ⊢
          have hsplit : fragsChars (fr :: rest)
              = fr.characters ++ fragsChars rest := by
            simp [fragsChars]
          rw [hsplit]
          rw [List.getElem?_append_left hc]
          exact getElem?_eq_some_getD _ c _ hc
      | succ f' =>
          have habs : absPos (fr :: rest) (f' + 1) c
              = fr.characters.length + absPos rest f' c := by
            unfold absPos
            rw [List.take_succ_cons]
            simp [Nat.add_assoc]
          have hfrag : (fr :: rest).getD (f' + 1) default
              = rest.getD f' default := rfl
          rw [habs, hfrag] at *
          have hsplit : fragsChars (fr :: rest)
              = fr.characters ++ fragsChars rest := by
            simp [fragsChars]
          rw [hsplit]
          rw [List.getElem?_append_right (Nat.le_add_right _ _)]
          rw [Nat.add_sub_cancel_left]
          refine ih f' c ?_ hc
          simp only [List.length_cons] at hf
          omega

theorem slice_refl (l : List Char) (a : ℕ) : slice l a a = [] := by
  simp [slice]

theorem slice_zero_length (l : List Char) : slice l 0 l.length = l := by
  simp [slice]

theorem slice_append_slice (l : List Char) (a b c : ℕ) (hab : a ≤ b)
    (hbc : b ≤ c) : slice l a b ++ slice l b c = slice l a c := by
  unfold slice
  have h1 : c - a = (b - a) + (c - b) := by omega
  rw [h1, List.take_add]
  congr 2
  rw [List.drop_drop]
  congr 1
  omega

theorem slice_extend (l : List Char) (a b : ℕ) (hab : a ≤ b)
    (hb : b < l.length) :
    slice l a (b + 1) = slice l a b ++ [l.getD b '\u0000'] := by
  unfold slice
  have h1 : b + 1 - a = (b - a) + 1 := by omega
  rw [h1, List.take_succ]
  congr 1
  rw [List.getElem?_drop]
  have h2 : a + (b - a) = b := by omega
  rw [h2, getElem?_eq_some_getD l b _ hb]
  rfl

/-! ## Surgery lemmas about `appendToLast`, `trimLast`, `fragmentsForAdd` -/

theorem appendToLast_ne_nil (frags : List Fragment) (c : Char)
    (h : frags ≠ []) : appendToLast frags c ≠ [] := by
  cases frags with
  | nil => exact absurd rfl h
  | cons f rest =>
      cases rest with
      | nil => simp [appendToLast]
      | cons g rest' => simp [appendToLast]

theorem trimLast_cons₂ (f : Fragment) (X : List Fragment) (hX : X ≠ [])
    (n : ℕ) : trimLast (f :: X) n = f :: trimLast X n := by
  cases X with
  | nil => exact absurd rfl hX
  | cons g rest => rfl

theorem length_appendToLast (frags : List Fragment) (c : Char) :
    (appendToLast frags c).length = frags.length := by
  induction frags with
  | nil => rfl
  | cons f rest ih =>
      cases rest with
      | nil => rfl
      | cons g rest' => simp only [appendToLast, List.length_cons] at ih ⊢; omega

theorem take_appendToLast (frags : List Fragment) (c : Char) (n : ℕ)
    (h : n < frags.length) :
    (appendToLast frags c).take n = frags.take n := by
  induction frags generalizing n with
  | nil => simp at h
  | cons f rest ih =>
      cases rest with
      | nil =>
          have hn : n = 0 := by
            simp only [List.length_singleton] at h
            omega
          subst hn
          rfl
      | cons g rest' =>
          cases n with
          | zero => rfl
          | succ n' =>
              simp only [appendToLast, List.take_succ_cons]
              rw [ih n' (by simp at h ⊢; omega)]

theorem getD_appendToLast_lt (frags : List Fragment) (c : Char) (i : ℕ)
    (h : i + 1 < frags.length) :
    (appendToLast frags c).getD i default = frags.getD i default := by
  induction frags generalizing i with
  | nil => simp at h
  | cons f rest ih =>
      cases rest with
      | nil => simp at h
      | cons g rest' =>
          cases i with
          | zero => rfl
          | succ i' =>
              simp only [appendToLast, List.getD_cons_succ]
              exact ih i' (by simp at h ⊢; omega)

theorem getD_appendToLast_last (frags : List Fragment) (c : Char)
    (hne : frags ≠ []) :
    ((appendToLast frags c).getD (frags.length - 1) default).characters
      = (frags.getD (frags.length - 1) default).characters ++ [c] := by
  induction frags with
  | nil => exact absurd rfl hne
  | cons f rest ih =>
      cases rest with
      | nil => rfl
      | cons g rest' =>
          have ih' := ih (by simp)
          simp only [appendToLast]
          have hidx : (f :: g :: rest').length - 1
              = ((g :: rest').length - 1) + 1 := by
            simp only [List.length_cons]
            omega
          rw [hidx]
          simp only [List.getD_cons_succ]
          exact ih'

theorem lastLen_eq_getD (frags : List Fragment) (hne : frags ≠ []) :
    ((frags.getLast?.map (fun f => f.characters.length)).getD 0)
      = (frags.getD (frags.length - 1) default).characters.length := by
  rw [List.getLast?_eq_getElem?]
  rw [getElem?_eq_some_getD frags (frags.length - 1) default
    (by cases frags with | nil => exact absurd rfl hne | cons a l => simp)]
  rfl

theorem trimLast_appendToLast (frags : List Fragment) (c : Char) (n : ℕ)
    (hne : frags ≠ [])
    (h : n ≤ (frags.getD (frags.length - 1) default).characters.length) :
    trimLast (appendToLast frags c) n = trimLast frags n := by
  induction frags with
  | nil => exact absurd rfl hne
  | cons f rest ih =>
      cases rest with
      | nil =>
          simp only [appendToLast, trimLast, Fragment.trim]
          simp only [List.length_cons, Nat.zero_add] at h
          have hn : n ≤ f.characters.length := h
          simp [List.take_append_of_le_length hn]
      | cons g rest' =>
          simp only [appendToLast]
          rw [trimLast_cons₂ f _ (appendToLast_ne_nil _ c (by simp)) n]
          rw [trimLast_cons₂ f _ (by simp) n]
          congr 1
          refine ih (by simp) ?_
          have hidx : (f :: g :: rest').length - 1
              = ((g :: rest').length - 1) + 1 := by
            simp only [List.length_cons]
            omega
          rw [hidx, List.getD_cons_succ] at h
          exact h

theorem trimLast_at_last_length (frags : List Fragment) (hne : frags ≠ []) :
    trimLast frags
      ((frags.getLast?.map (fun f => f.characters.length)).getD 0)
    = frags := by
  induction frags with
  | nil => exact absurd rfl hne
  | cons f rest ih =>
      cases rest with
      | nil =>
          simp only [trimLast, Fragment.trim]
          simp only [List.getLast?_singleton]
          simp
      | cons g rest' =>
          simp only [trimLast, List.getLast?_cons_cons]
          rw [ih (by simp)]

/-- What `truncChars` yields at the exact line position a hint records
just before the hinted character is appended: the accumulated content at
record time. -/
theorem truncChars_record (frags : List Fragment) (c : Char)
    (hne : frags ≠ []) :
    truncChars (appendToLast frags c) frags.length
      ((frags.getLast?.map (fun f => f.characters.length)).getD 0)
    = fragsChars frags := by
  unfold truncChars
  have htake : (appendToLast frags c).take frags.length
      = appendToLast frags c := by
    conv_lhs => rw [← length_appendToLast frags c]
    exact List.take_length _
  rw [htake]
  rw [trimLast_appendToLast frags c _ hne
    (le_of_eq (lastLen_eq_getD frags hne))]
  rw [trimLast_at_last_length frags hne]

/-- `truncChars` at a recorded position is unchanged by appending a
character (the appended character sits beyond the recorded position). -/
theorem truncChars_appendToLast_stable (frags : List Fragment) (c : Char)
    (clF clC : ℕ) (h0 : 0 < clF) (h1 : clF ≤ frags.length)
    (h2 : clC ≤ (frags.getD (clF - 1) default).characters.length) :
    truncChars (appendToLast frags c) clF clC
      = truncChars frags clF clC := by
  unfold truncChars
  rcases Nat.lt_or_ge clF frags.length with hlt | hge
  · rw [take_appendToLast frags c clF hlt]
  · have heq : clF = frags.length := le_antisymm h1 hge
    subst heq
    have htake : (appendToLast frags c).take frags.length
        = appendToLast frags c := by
      conv_lhs => rw [← length_appendToLast frags c]
      exact List.take_length _
    rw [htake, List.take_length]
    have hne : frags ≠ [] := by
      intro hnil
      rw [hnil] at h0
      simp at h0
    rw [trimLast_appendToLast frags c clC hne h2]

/-- `truncChars` at a recorded position is unchanged by appending a new
(empty) fragment at the end. -/
theorem truncChars_append_frag_stable (frags : List Fragment)
    (e : Fragment) (clF clC : ℕ) (h1 : clF ≤ frags.length) :
    truncChars (frags ++ [e]) clF clC = truncChars frags clF clC := by
  unfold truncChars
  rw [List.take_append_of_le_length h1]

/-! ## Reconstruction helper lemmas (claim C6) -/

/-- Every measured character width is positive when the size table is. -/
theorem widthAt_pos (mlb : MultiLineBreak)
    (hpos : ∀ ch s, 0 < mlb.size_by_style ch s) (f c : ℕ) :
    0 < mlb.widthAt f c := by
  unfold MultiLineBreak.widthAt MultiLineBreak.getCharacterWidth
  split
  · exact hpos _ _
  · exact hpos _ _

/-- The character at a well-formed cursor is the character of the
concatenated text at the cursor's absolute position. -/
theorem textChars_getD_absAt (mlb : MultiLineBreak) (f c : ℕ)
    (hf : f < mlb.styled_text_fragments.length)
    (hc : c < (mlb.fragAt f).characters.length) :
    mlb.textChars.getD (mlb.absAt f c) '\u0000' = mlb.charAt f c := by
  unfold MultiLineBreak.textChars MultiLineBreak.absAt
  rw [List.getD_eq_getElem?_getD,
    fragsChars_getElem? mlb.styled_text_fragments f c hf hc]
  rfl

/-- The character at a well-formed cursor occurs in the input text. -/
theorem charAt_mem_textChars (mlb : MultiLineBreak) (f c : ℕ)
    (hf : f < mlb.styled_text_fragments.length)
    (hc : c < (mlb.fragAt f).characters.length) :
    mlb.charAt f c ∈ mlb.textChars :=
  List.getElem?_mem (fragsChars_getElem? mlb.styled_text_fragments f c hf hc)

/-- A strictly in-bounds cursor has absolute position below the text
length. -/
theorem absAt_lt_total (mlb : MultiLineBreak) (f c : ℕ)
    (hf : f < mlb.styled_text_fragments.length)
    (hc : c < (mlb.fragAt f).characters.length) :
    mlb.absAt f c < mlb.textChars.length :=
  absPos_lt_total mlb.styled_text_fragments f c hf hc

/-- The end-of-input cursor sits at the text length. -/
theorem absAt_end (mlb : MultiLineBreak) :
    mlb.absAt mlb.styled_text_fragments.length 0 = mlb.textChars.length :=
  (fragsChars_length mlb.styled_text_fragments).symm

/-- The end-of-input cursor is well formed. -/
theorem cursorOK_end (mlb : MultiLineBreak) :
    mlb.cursorOK mlb.styled_text_fragments.length 0 :=
  ⟨le_refl _, fun h => absurd h (lt_irrefl _), fun _ => rfl⟩

/-- The fragment bookkeeping of `add_character`: the kept character is
appended to the (possibly freshly started) active fragment. -/
theorem add_character_fragments (cl : CurrentLine) (c : Char) (cw : ℚ)
    (ff : String) (fs : ℚ) (fst : String) (ul : Bool) (str : ℚ)
    (ofi oci : ℕ) :
    (cl.add_character c cw ff fs fst ul str ofi oci).fragments
      = if c ≠ SOFT_HYPHEN ∨ cl.print_sh = true then
          appendToLast (cl.fragmentsForAdd ff fs fst ul str) c
        else cl.fragmentsForAdd ff fs fst ul str := by
  unfold CurrentLine.add_character
  split_ifs <;> rfl

/-- `fragmentsForAdd` either keeps the fragment list or appends one new
empty fragment. -/
theorem fragmentsForAdd_cases (cl : CurrentLine) (ff : String) (fs : ℚ)
    (fst : String) (ul : Bool) (str : ℚ) :
    cl.fragmentsForAdd ff fs fst ul str = cl.fragments ∨
    ∃ e : Fragment, e.characters = [] ∧
      cl.fragmentsForAdd ff fs fst ul str = cl.fragments ++ [e] := by
  unfold CurrentLine.fragmentsForAdd
  split
  · rename_i heq
    have hnil : cl.fragments = [] := List.getLast?_eq_none_iff.mp heq
    right
    exact ⟨Fragment.mk ff fs fst ul str [], rfl, by rw [hnil]; rfl⟩
  · split
    · right
      exact ⟨Fragment.mk ff fs fst ul str [], rfl, rfl⟩
    · left
      rfl

/-- With no hyphen checkpoint, `automatic_break` restores the space
checkpoint and breaks there. -/
theorem automatic_break_space_only (cl : CurrentLine) (j : Bool)
    (sh : SpaceHint) (hh : cl.hyphen_break_hint = Option.none)
    (hs : cl.space_break_hint = Option.some sh) :
    cl.automatic_break j
      = Option.some (sh.original_fragment_index,
          sh.original_character_index,
          (cl.applyHint sh.current_line_fragment_index
            sh.current_line_character_index sh.number_of_spaces
            sh.width).manual_break j) := by
  simp only [CurrentLine.automatic_break, hh, hs]

/-- `spaceHintInv` is preserved when a character is appended to the line
(the recorded rollback position sits at or before the old content). -/
theorem spaceHintInv_preserved (mlb : MultiLineBreak) (startAbs : ℕ)
    (frags frags' : List Fragment) (ch : Char)
    (hcases : frags' = frags ∨ ∃ e : Fragment, e.characters = [] ∧
      frags' = frags ++ [e])
    (sh : SpaceHint) (hinv : spaceHintInv mlb startAbs frags sh) :
    spaceHintInv mlb startAbs (appendToLast frags' ch) sh := by
  obtain ⟨h1, h2, h3, h4, h5, h6, h7, h8⟩ := hinv
  have hlen' : frags.length ≤ frags'.length := by
    rcases hcases with rfl | ⟨e, he, rfl⟩
    · exact le_refl _
    · simp
  have hgetD : frags'.getD (sh.current_line_fragment_index - 1) default
      = frags.getD (sh.current_line_fragment_index - 1) default := by
    rcases hcases with rfl | ⟨e, he, rfl⟩
    · rfl
    · exact List.getD_append _ _ _ _ (by omega)
  have h7' : sh.current_line_character_index ≤
      ((frags'.getD (sh.current_line_fragment_index - 1)
        default).characters).length := by
    rw [hgetD]
    exact h7
  have h7'' : sh.current_line_character_index ≤
      (((appendToLast frags' ch).getD
        (sh.current_line_fragment_index - 1) default).characters).length := by
    rcases Nat.lt_or_ge sh.current_line_fragment_index frags'.length
      with hlt | hge
    · rw [getD_appendToLast_lt frags' ch _ (by omega)]
      exact h7'
    · have heq : sh.current_line_fragment_index = frags'.length :=
        le_antisymm (le_trans h6 hlen') hge
      have hne : frags' ≠ [] := by
        intro hnil
        rw [hnil] at heq
        simp at heq
        omega
      rw [heq, getD_appendToLast_last frags' ch hne]
      rw [heq] at h7'
      simp only [List.length_append, List.length_singleton]
      omega
  refine ⟨h1, h2, h3, h4, h5, ?_, h7'', ?_⟩
  · rw [length_appendToLast]
    exact le_trans h6 hlen'
  · rw [truncChars_appendToLast_stable frags' ch _ _ h5
      (le_trans h6 hlen') h7']
    rcases hcases with rfl | ⟨e, he, rfl⟩
    · exact h8
    · rw [truncChars_append_frag_stable frags e _ _ h6]
      exact h8

/-- The space hint recorded while adding an overflow-free word-space
satisfies `spaceHintInv` for the fragments after the addition. -/
theorem spaceHintInv_record (mlb : MultiLineBreak) (startAbs : ℕ)
    (cl : CurrentLine) (f c : ℕ) (ff : String) (fs : ℚ) (fst : String)
    (ul : Bool) (str : ℚ)
    (hf : f < mlb.styled_text_fragments.length)
    (hc : c < (mlb.fragAt f).characters.length)
    (hsp : mlb.charAt f c = SPACE)
    (hstart : startAbs ≤ mlb.absAt f c)
    (hchars : cl.chars = slice mlb.textChars startAbs (mlb.absAt f c)) :
    spaceHintInv mlb startAbs
      (appendToLast (cl.fragmentsForAdd ff fs fst ul str) SPACE)
      (SpaceHint.mk f c (cl.fragmentsForAdd ff fs fst ul str).length
        (((cl.fragmentsForAdd ff fs fst ul str).getLast?.map
          (fun fr => fr.characters.length)).getD 0)
        cl.width cl.number_of_spaces) := by
  have hne : cl.fragmentsForAdd ff fs fst ul str ≠ [] :=
    fragmentsForAdd_ne_nil cl ff fs fst ul str
  have hpos0 : 0 < (cl.fragmentsForAdd ff fs fst ul str).length :=
    List.length_pos.mpr hne
  refine ⟨hf, hc, hsp, hstart, hpos0, ?_, ?_, ?_⟩
  · rw [length_appendToLast]
  · rw [lastLen_eq_getD _ hne, getD_appendToLast_last _ SPACE hne]
    simp only [List.length_append, List.length_singleton]
    omega
  · rw [truncChars_record _ SPACE hne, fragsChars_fragmentsForAdd]
    exact hchars

/-- The loop invariant survives adding the (kept, non-soft-hyphen)
cursor character to the line and advancing the cursor. -/
theorem loopInv_add (mlb : MultiLineBreak) (startAbs f c : ℕ)
    (cl : CurrentLine)
    (hpos : ∀ ch s, 0 < mlb.size_by_style ch s)
    (hf : f < mlb.styled_text_fragments.length)
    (hc : c < (mlb.fragAt f).characters.length)
    (hne : mlb.charAt f c ≠ SOFT_HYPHEN)
    (hinv : mlb.loopInv startAbs f c cl) :
    mlb.loopInv startAbs f (c + 1)
      (cl.add_character (mlb.charAt f c) (mlb.widthAt f c)
        (mlb.fragAt f).font_family (mlb.fragAt f).font_size_pt
        (mlb.fragAt f).font_style (mlb.fragAt f).underline
        (mlb.fragAt f).font_stretching f c) := by
  obtain ⟨⟨hle, hbnd, hend⟩, hsa, hch, hhy, hsp, hw0, hwnn⟩ := hinv
  have hkeep : mlb.charAt f c ≠ SOFT_HYPHEN ∨ cl.print_sh = true :=
    Or.inl hne
  have habs : mlb.absAt f (c + 1) = mlb.absAt f c + 1 := rfl
  have hlt : mlb.absAt f c < mlb.textChars.length :=
    absAt_lt_total mlb f c hf hc
  refine ⟨⟨hle, fun _ => hc, fun heq => absurd heq (Nat.ne_of_lt hf)⟩,
    ?_, ?_, ?_, ?_, ?_, ?_⟩
  · rw [habs]
    exact le_trans hsa (Nat.le_succ _)
  · rw [add_character_chars, if_pos hkeep, hch, habs,
      slice_extend mlb.textChars startAbs (mlb.absAt f c) hsa hlt,
      textChars_getD_absAt mlb f c hf hc]
  · rw [add_character_hyphen_hint,
      if_neg (fun hcon => hne hcon.1)]
    exact hhy
  · intro sh hsome
    rw [add_character_fragments, if_pos hkeep]
    rw [add_character_space_hint] at hsome
    by_cases hspc : mlb.charAt f c = SPACE
    · rw [if_pos hspc] at hsome
      cases Option.some.inj hsome
      rw [hspc]
      exact spaceHintInv_record mlb startAbs cl f c _ _ _ _ _ hf hc hspc
        hsa hch
    · rw [if_neg hspc] at hsome
      exact spaceHintInv_preserved mlb startAbs cl.fragments _ _
        (fragmentsForAdd_cases cl _ _ _ _ _) sh (hsp sh hsome)
  · rw [add_character_width, if_pos hkeep]
    intro h
    exact absurd h (ne_of_gt (by
      have := widthAt_pos mlb hpos f c
      linarith))
  · rw [add_character_width, if_pos hkeep]
    have := widthAt_pos mlb hpos f c
    linarith

/-- The loop invariant survives stepping past an exhausted fragment. -/
theorem loopInv_skip (mlb : MultiLineBreak) (startAbs f c : ℕ)
    (cl : CurrentLine)
    (hf : f < mlb.styled_text_fragments.length)
    (hc : ¬c < (mlb.fragAt f).characters.length)
    (hinv : mlb.loopInv startAbs f c cl) :
    mlb.loopInv startAbs (f + 1) 0 cl := by
  obtain ⟨⟨hle, hbnd, hend⟩, hsa, hch, hhy, hsp, hw0, hwnn⟩ := hinv
  have hceq : c = (mlb.styled_text_fragments.getD f
      default).characters.length :=
    Nat.le_antisymm (hbnd hf) (Nat.le_of_not_lt hc)
  have habs : mlb.absAt (f + 1) 0 = mlb.absAt f c := by
    unfold MultiLineBreak.absAt
    rw [absPos_frag_succ mlb.styled_text_fragments f hf, ← hceq]
  refine ⟨⟨Nat.succ_le_of_lt hf, fun _ => Nat.zero_le _, fun _ => rfl⟩,
    ?_, ?_, hhy, hsp, ?_, hwnn⟩
  · rw [habs]
    exact hsa
  · rw [habs]
    exact hch
  · intro h
    rw [habs]
    exact hw0 h

/-- Invariant proof for the reconstruction claim C6: starting from a
state satisfying the loop invariant for the call's start position, a
returned line satisfies `lineOK` (its content plus one elided separator
is the text consumed by the call), and the "no more lines" sentinel is
returned only when the call started at the end of the text, with the
final cursor normalized to the end of input. -/
theorem lineLoop_reconstruct (mlb : MultiLineBreak) (maxW : ℚ) (ws : Bool)
    (saved : Option ℕ) (startF startC : ℕ)
    (hNoSH : SOFT_HYPHEN ∉ mlb.textChars)
    (hpos : ∀ ch s, 0 < mlb.size_by_style ch s)
    (hS : mlb.cursorOK startF startC) :
    ∀ (fuel f c : ℕ) (cl : CurrentLine),
      mlb.loopInv (mlb.absAt startF startC) f c cl →
      ∀ r, MultiLineBreak.lineLoop mlb maxW ws saved startF startC fuel
          f c cl = Option.some r →
        (∀ line st', r = Except.ok (Option.some line, st') →
          lineOK mlb (mlb.absAt startF startC) line st') ∧
        (∀ st', r = Except.ok (Option.none, st') →
          mlb.absAt startF startC = mlb.textChars.length ∧
          st'.fragment_index = mlb.styled_text_fragments.length ∧
          st'.character_index = 0) := by
  intro fuel
  induction fuel with
  | zero =>
      intro f c cl _ r h
      rw [MultiLineBreak.lineLoop] at h
      exact absurd h (by simp)
  | succ fuel ih =>
      intro f c cl hinv r h
      obtain ⟨⟨hle, hbnd, hend⟩, hsa, hch, hhy, hsp, hw0, hwnn⟩ := hinv
      by_cases hf : f < mlb.styled_text_fragments.length
      · by_cases hcc : c < (mlb.fragAt f).characters.length
        · have hlt : mlb.absAt f c < mlb.textChars.length :=
            absAt_lt_total mlb f c hf hcc
          have habs1 : mlb.absAt f (c + 1) = mlb.absAt f c + 1 := rfl
          by_cases hn : mlb.charAt f c = NEWLINE
          · rw [lineLoop_step_newline mlb maxW ws saved startF startC fuel
              f c cl hf hcc hn] at h
            have hr := Option.some.inj h
            subst hr
            constructor
            · intro line st' hre
              simp only [Except.ok.injEq, Prod.mk.injEq,
                Option.some.injEq] at hre
              obtain ⟨h1, h2⟩ := hre
              subst h1
              subst h2
              refine ⟨⟨hle, fun _ => hcc, fun heq =>
                absurd heq (Nat.ne_of_lt hf)⟩, ?_, [NEWLINE],
                Or.inr (Or.inr rfl), ?_⟩
              · show mlb.absAt startF startC ≤ mlb.absAt f (c + 1)
                rw [habs1]
                exact le_trans hsa (Nat.le_succ _)
              · show (cl.manual_break false true).chars ++ [NEWLINE]
                  = slice mlb.textChars (mlb.absAt startF startC)
                      (mlb.absAt f (c + 1))
                rw [habs1, slice_extend mlb.textChars _ _ hsa hlt,
                  textChars_getD_absAt mlb f c hf hcc, hn,
                  (manual_break_fields cl false true).1, hch]
            · intro st' hre
              simp at hre
          · by_cases hov : cl.width + mlb.widthAt f c > maxW
            · by_cases hspc : mlb.charAt f c = SPACE
              · rw [lineLoop_step_space_break mlb maxW ws saved startF
                  startC fuel f c cl hf hcc hn hov hspc] at h
                have hr := Option.some.inj h
                subst hr
                constructor
                · intro line st' hre
                  simp only [Except.ok.injEq, Prod.mk.injEq,
                    Option.some.injEq] at hre
                  obtain ⟨h1, h2⟩ := hre
                  subst h1
                  subst h2
                  refine ⟨⟨hle, fun _ => hcc, fun heq =>
                    absurd heq (Nat.ne_of_lt hf)⟩, ?_, [SPACE],
                    Or.inr (Or.inl rfl), ?_⟩
                  · show mlb.absAt startF startC ≤ mlb.absAt f (c + 1)
                    rw [habs1]
                    exact le_trans hsa (Nat.le_succ _)
                  · show (cl.manual_break mlb.justify false).chars
                        ++ [SPACE]
                      = slice mlb.textChars (mlb.absAt startF startC)
                          (mlb.absAt f (c + 1))
                    rw [habs1, slice_extend mlb.textChars _ _ hsa hlt,
                      textChars_getD_absAt mlb f c hf hcc, hspc,
                      (manual_break_fields cl mlb.justify false).1, hch]
                · intro st' hre
                  simp at hre
              · by_cases hab : cl.automatic_break_possible = true
                · cases hsopt : cl.space_break_hint with
                  | none =>
                      exfalso
                      unfold CurrentLine.automatic_break_possible at hab
                      rw [hhy, hsopt] at hab
                      simp at hab
                  | some sh =>
                      have habr := automatic_break_space_only cl
                        mlb.justify sh hhy hsopt
                      rw [lineLoop_step_auto mlb maxW ws saved startF
                        startC fuel f c cl hf hcc hn hov hspc hab
                        sh.original_fragment_index
                        sh.original_character_index _ habr] at h
                      have hr := Option.some.inj h
                      subst hr
                      obtain ⟨g1, g2, g3, g4, g5, g6, g7, g8⟩ :=
                        hsp sh hsopt
                      constructor
                      · intro line st' hre
                        simp only [Except.ok.injEq, Prod.mk.injEq,
                          Option.some.injEq] at hre
                        obtain ⟨h1, h2⟩ := hre
                        subst h1
                        subst h2
                        have habs2 : mlb.absAt sh.original_fragment_index
                            (sh.original_character_index + 1)
                          = mlb.absAt sh.original_fragment_index
                              sh.original_character_index + 1 := rfl
                        refine ⟨⟨le_of_lt g1, fun _ => g2, fun heq =>
                          absurd heq (Nat.ne_of_lt g1)⟩, ?_, [SPACE],
                          Or.inr (Or.inl rfl), ?_⟩
                        · show mlb.absAt startF startC
                            ≤ mlb.absAt sh.original_fragment_index
                                (sh.original_character_index + 1)
                          rw [habs2]
                          exact le_trans g4 (Nat.le_succ _)
                        · show ((cl.applyHint
                              sh.current_line_fragment_index
                              sh.current_line_character_index
                              sh.number_of_spaces
                              sh.width).manual_break mlb.justify).chars
                              ++ [SPACE]
                            = slice mlb.textChars
                                (mlb.absAt startF startC)
                                (mlb.absAt sh.original_fragment_index
                                  (sh.original_character_index + 1))
                          rw [habs2, slice_extend mlb.textChars _ _ g4
                              (absAt_lt_total mlb _ _ g1 g2),
                            textChars_getD_absAt mlb _ _ g1 g2, g3,
                            (manual_break_fields _ mlb.justify false).1,
                            (applyHint_fields cl _ _ _ _).1, g8]
                      · intro st' hre
                        simp at hre
                · by_cases hws : ws = true
                  · by_cases hsv : saved = Option.some c
                    · rw [lineLoop_step_error mlb maxW ws saved startF
                        startC fuel f c cl hf hcc hn hov hspc hab hws
                        hsv] at h
                      have hr := Option.some.inj h
                      subst hr
                      constructor
                      · intro line st' hre
                        simp at hre
                      · intro st' hre
                        simp at hre
                    · rw [lineLoop_step_forced mlb maxW ws saved startF
                        startC fuel f c cl hf hcc hn hov hspc hab hws
                        hsv] at h
                      have hr := Option.some.inj h
                      subst hr
                      constructor
                      · intro line st' hre
                        simp only [Except.ok.injEq, Prod.mk.injEq,
                          Option.some.injEq] at hre
                        obtain ⟨h1, h2⟩ := hre
                        subst h1
                        subst h2
                        refine ⟨⟨hle, hbnd, hend⟩, hsa, [],
                          Or.inl rfl, ?_⟩
                        show (cl.manual_break false false).chars ++ []
                          = slice mlb.textChars (mlb.absAt startF startC)
                              (mlb.absAt f c)
                        rw [List.append_nil,
                          (manual_break_fields cl false false).1, hch]
                      · intro st' hre
                        simp at hre
                  · rw [lineLoop_step_nosplit mlb maxW ws saved startF
                      startC fuel f c cl hf hcc hn hov hspc hab hws] at h
                    have hr := Option.some.inj h
                    subst hr
                    constructor
                    · intro line st' hre
                      simp only [Except.ok.injEq, Prod.mk.injEq,
                        Option.some.injEq] at hre
                      obtain ⟨h1, h2⟩ := hre
                      subst h1
                      subst h2
                      refine ⟨hS, le_refl _, [], Or.inl rfl, ?_⟩
                      show ((CurrentLine.init false).manual_break
                            mlb.justify false).chars ++ []
                        = slice mlb.textChars (mlb.absAt startF startC)
                            (mlb.absAt startF startC)
                      rw [slice_refl, List.append_nil]
                      rfl
                    · intro st' hre
                      simp at hre
            · rw [lineLoop_step_add mlb maxW ws saved startF startC fuel
                f c cl hf hcc hn hov] at h
              have hmem : mlb.charAt f c ∈ mlb.textChars :=
                charAt_mem_textChars mlb f c hf hcc
              have hneSH : mlb.charAt f c ≠ SOFT_HYPHEN := by
                intro heq
                rw [heq] at hmem
                exact hNoSH hmem
              exact ih f (c + 1) _ (loopInv_add mlb _ f c cl hpos hf hcc
                hneSH ⟨⟨hle, hbnd, hend⟩, hsa, hch, hhy, hsp, hw0,
                  hwnn⟩) r h
        · rw [lineLoop_step_skip mlb maxW ws saved startF startC fuel f c
            cl hf hcc] at h
          exact ih (f + 1) 0 cl (loopInv_skip mlb _ f c cl hf hcc
            ⟨⟨hle, hbnd, hend⟩, hsa, hch, hhy, hsp, hw0, hwnn⟩) r h
      · by_cases hw : cl.width ≠ 0
        · rw [lineLoop_step_exit_line mlb maxW ws saved startF startC
            fuel f c cl hf hw] at h
          have hr := Option.some.inj h
          subst hr
          constructor
          · intro line st' hre
            simp only [Except.ok.injEq, Prod.mk.injEq,
              Option.some.injEq] at hre
            obtain ⟨h1, h2⟩ := hre
            subst h1
            subst h2
            refine ⟨⟨hle, hbnd, hend⟩, hsa, [], Or.inl rfl, ?_⟩
            show (cl.manual_break false false).chars ++ []
              = slice mlb.textChars (mlb.absAt startF startC)
                  (mlb.absAt f c)
            rw [List.append_nil, (manual_break_fields cl false false).1,
              hch]
          · intro st' hre
            simp at hre
        · rw [lineLoop_step_exit_sentinel mlb maxW ws saved startF startC
            fuel f c cl hf hw] at h
          have hr := Option.some.inj h
          subst hr
          constructor
          · intro line st' hre
            simp at hre
          · intro st' hre
            simp only [Except.ok.injEq, Prod.mk.injEq] at hre
            obtain ⟨-, hre2⟩ := hre
            subst hre2
            have hfe : f = mlb.styled_text_fragments.length :=
              Nat.le_antisymm hle (Nat.le_of_not_lt hf)
            have hce : c = 0 := hend hfe
            have hwz : cl.width = 0 := not_not.mp hw
            have h1 := hw0 hwz
            refine ⟨?_, hfe, hce⟩
            rw [← h1, hfe, hce]
            exact absAt_end mlb

/-- Per-call reconstruction: from a well-formed cursor, a returned line
satisfies `lineOK` for the call's start position, and the sentinel is
returned only at the end of the text with the cursor normalized. -/
theorem get_line_reconstruct (mlb : MultiLineBreak) (maxW : ℚ) (ws : Bool)
    (fuel : ℕ) (st : MLBState)
    (hNoSH : SOFT_HYPHEN ∉ mlb.textChars)
    (hpos : ∀ ch s, 0 < mlb.size_by_style ch s)
    (hcur : mlb.cursorOK st.fragment_index st.character_index) :
    ∀ r, mlb.get_line_of_given_width st maxW ws fuel = Option.some r →
      (∀ line st', r = Except.ok (Option.some line, st') →
        lineOK mlb (mlb.absAt st.fragment_index st.character_index)
          line st') ∧
      (∀ st', r = Except.ok (Option.none, st') →
        mlb.absAt st.fragment_index st.character_index
            = mlb.textChars.length ∧
        st'.fragment_index = mlb.styled_text_fragments.length ∧
        st'.character_index = 0) := by
  intro r h
  unfold MultiLineBreak.get_line_of_given_width at h
  by_cases he : st.fragment_index = mlb.styled_text_fragments.length
  · rw [if_pos he] at h
    have hr := Option.some.inj h
    subst hr
    constructor
    · intro line st' hre
      simp at hre
    · intro st' hre
      simp only [Except.ok.injEq, Prod.mk.injEq] at hre
      obtain ⟨-, hre2⟩ := hre
      subst hre2
      have hc0 : st.character_index = 0 := hcur.2.2 he
      refine ⟨?_, he, hc0⟩
      rw [he, hc0]
      exact absAt_end mlb
  · rw [if_neg he] at h
    have hinit : mlb.loopInv
        (mlb.absAt st.fragment_index st.character_index)
        st.fragment_index st.character_index
        (CurrentLine.init mlb.print_sh) := by
      refine ⟨hcur, le_refl _, ?_, rfl, ?_, fun _ => rfl, le_refl 0⟩
      · rw [slice_refl]
        rfl
      · intro sh hs
        simp [CurrentLine.init] at hs
    exact lineLoop_reconstruct mlb maxW ws
      st.char_index_for_last_forced_manual_break st.fragment_index
      st.character_index hNoSH hpos hcur fuel st.fragment_index
      st.character_index (CurrentLine.init mlb.print_sh) hinit r h

/-- Whole-driver reconstruction: over any query sequence completing
without error, the returned lines, each extended by one elided separator
(empty, a word-space, or a newline), concatenate to exactly the text
consumed between the initial and final cursor positions; when the
sentinel was reached the final position is the end of the text. -/
theorem runQueries_reconstruct (mlb : MultiLineBreak) (fuel : ℕ)
    (hNoSH : SOFT_HYPHEN ∉ mlb.textChars)
    (hpos : ∀ ch s, 0 < mlb.size_by_style ch s) :
    ∀ (qs : List (ℚ × Bool)) (st : MLBState),
      mlb.cursorOK st.fragment_index st.character_index →
      ∀ lines sentinel stf,
        mlb.runQueries fuel qs st
          = Option.some (Except.ok (lines, sentinel, stf)) →
        ∃ seps : List (List Char),
          seps.length = lines.length ∧
          (∀ s ∈ seps, s = [] ∨ s = [SPACE] ∨ s = [NEWLINE]) ∧
          (List.zipWith (fun l s => TextLine.chars l ++ s) lines
              seps).flatten
            = slice mlb.textChars
                (mlb.absAt st.fragment_index st.character_index)
                (mlb.absAt stf.fragment_index stf.character_index) ∧
          mlb.cursorOK stf.fragment_index stf.character_index ∧
          mlb.absAt st.fragment_index st.character_index
            ≤ mlb.absAt stf.fragment_index stf.character_index ∧
          (sentinel = true →
            mlb.absAt stf.fragment_index stf.character_index
              = mlb.textChars.length) := by
  intro qs
  induction qs with
  | nil =>
      intro st hcur lines sentinel stf h
      rw [MultiLineBreak.runQueries] at h
      simp only [Option.some.injEq, Except.ok.injEq, Prod.mk.injEq] at h
      obtain ⟨h1, h2, h3⟩ := h
      subst h1
      subst h2
      subst h3
      refine ⟨[], rfl, by simp, ?_, hcur, le_refl _, ?_⟩
      · rw [slice_refl]
        rfl
      · intro hfalse
        exact absurd hfalse (by simp)
  | cons q qs ihq =>
      intro st hcur lines sentinel stf h
      obtain ⟨w, wsb⟩ := q
      rw [MultiLineBreak.runQueries] at h
      split at h
      · exact absurd h (by simp)
      · exact absurd h (by simp)
      · rename_i st' hg
        simp only [Option.some.injEq, Except.ok.injEq,
          Prod.mk.injEq] at h
        obtain ⟨h1, h2, h3⟩ := h
        subst h1
        subst h2
        subst h3
        obtain ⟨hline, hsent⟩ := get_line_reconstruct mlb w wsb fuel st
          hNoSH hpos hcur _ hg
        obtain ⟨htot, hsf, hsc⟩ := hsent st' rfl
        have habs' : mlb.absAt st'.fragment_index
            st'.character_index = mlb.textChars.length := by
          rw [hsf, hsc]
          exact absAt_end mlb
        refine ⟨[], rfl, by simp, ?_, ?_, ?_, fun _ => habs'⟩
        · rw [habs', htot, slice_refl]
          rfl
        · rw [hsf, hsc]
          exact cursorOK_end mlb
        · rw [habs', htot]
      · rename_i line st' hg
        obtain ⟨hline, hsent⟩ := get_line_reconstruct mlb w wsb fuel st
          hNoSH hpos hcur _ hg
        split at h
        · exact absurd h (by simp)
        · exact absurd h (by simp)
        · rename_i lines' sent' stf' hrec
          simp only [Option.some.injEq, Except.ok.injEq,
            Prod.mk.injEq] at h
          obtain ⟨h1, h2, h3⟩ := h
          subst h1
          subst h2
          subst h3
          obtain ⟨hcur', hle', sep, hsepform, hsep⟩ :=
            hline line st' rfl
          obtain ⟨seps', hlen', hform', hjoin', hcurf, hlef, hsentf⟩ :=
            ihq st' hcur' lines' sent' stf' hrec
          refine ⟨sep :: seps', by simp [hlen'], ?_, ?_,
            hcurf, le_trans hle' hlef, hsentf⟩
          · intro s hs
            rcases List.mem_cons.mp hs with rfl | hs'
            · exact hsepform
            · exact hform' s hs'
          · simp only [List.zipWith_cons_cons, List.flatten_cons]
            rw [hjoin', hsep]
            exact slice_append_slice mlb.textChars _ _ _ hle' hlef

/-- **C6 counterexample.**  The claim says concatenating the returned
lines' fragment text with one elided separator re-inserted per break
reconstructs the original run text.  With `print_sh = False`, a soft
hyphen that is *not* chosen as a break point is silently dropped
(line_break.py lines 167-186: the character is recorded only as a hint
and never appended): the run `"a­b"` (all widths 1) with an ample
width query produces the single line `"ab"` with no break at all, so no
per-break separator insertion can recover the lost soft hyphen. -/
theorem C6_counterexample_soft_hyphen_dropped :
    (MultiLineBreak.mk
        [Fragment.mk "helvetica" 12 "" false 100 ['a', '\u00ad', 'b']]
        (fun _ _ => 1) false false).runQueries 20 [(10, true), (10, true)]
        (MLBState.mk 0 0 Option.none)
      = Option.some (Except.ok
          ([TextLine.mk [Fragment.mk "helvetica" 12 "" false 100
              ['a', 'b']] 2 0 false false],
            true, MLBState.mk 1 0 Option.none)) ∧
    (MultiLineBreak.mk
        [Fragment.mk "helvetica" 12 "" false 100 ['a', '\u00ad', 'b']]
        (fun _ _ => 1) false false).textChars = ['a', '\u00ad', 'b'] ∧
    (TextLine.mk [Fragment.mk "helvetica" 12 "" false 100 ['a', 'b']]
        2 0 false false).chars = ['a', 'b'] ∧
    (['a', 'b'] : List Char) ≠ ['a', '\u00ad', 'b'] := by
  decide

/-- **C6 (corrected).**  For every soft-hyphen-free sequence of styled
runs with positive character widths and every sequence of width queries
that the driver completes without error, reaching the "no more lines"
sentinel, there is one elided separator per returned line — the empty
list, a consumed word-space, or a consumed newline — such that
concatenating each line's fragment text followed by its separator
reconstructs the original run text.  (The original claim's soft-hyphen
separator clause fails: a soft hyphen not used as a break point is
dropped without a break occurring there, see
`C6_counterexample_soft_hyphen_dropped`.) -/
theorem C6_reconstruction (mlb : MultiLineBreak) (fuel : ℕ)
    (qs : List (ℚ × Bool)) (lines : List TextLine) (stf : MLBState)
    (hNoSH : SOFT_HYPHEN ∉ mlb.textChars)
    (hpos : ∀ ch s, 0 < mlb.size_by_style ch s)
    (h : mlb.runQueries fuel qs (MLBState.mk 0 0 Option.none)
      = Option.some (Except.ok (lines, true, stf))) :
    ∃ seps : List (List Char),
      seps.length = lines.length ∧
      (∀ s ∈ seps, s = [] ∨ s = [SPACE] ∨ s = [NEWLINE]) ∧
      (List.zipWith (fun l s => TextLine.chars l ++ s) lines
          seps).flatten
        = mlb.textChars := by
  have hcur0 : mlb.cursorOK (MLBState.mk 0 0 Option.none).fragment_index
      (MLBState.mk 0 0 Option.none).character_index :=
    ⟨Nat.zero_le _, fun _ => Nat.zero_le _, fun _ => rfl⟩
  obtain ⟨seps, hlen, hform, hjoin, hcurf, hle, hsent⟩ :=
    runQueries_reconstruct mlb fuel hNoSH hpos qs
      (MLBState.mk 0 0 Option.none) hcur0 lines true stf h
  refine ⟨seps, hlen, hform, ?_⟩
  rw [hjoin]
  have h0 : mlb.absAt (MLBState.mk 0 0 Option.none).fragment_index
      (MLBState.mk 0 0 Option.none).character_index = 0 := rfl
  rw [h0, hsent rfl]
  exact slice_zero_length mlb.textChars

/-- Witness for `C6_reconstruction`: the run `"ab cd"` (all widths 1,
justification on) with queries of widths 2, 10, 10 returns the lines
`"ab"` and `"cd"` and reaches the sentinel; the theorem yields the
separators (here a word-space and an empty separator) reconstructing
the input text. -/
theorem C6_witness :
    SOFT_HYPHEN ∉ (MultiLineBreak.mk
        [Fragment.mk "helvetica" 12 "" false 100
          ['a', 'b', ' ', 'c', 'd']]
        (fun _ _ => 1) true false).textChars ∧
    ∃ seps : List (List Char),
      seps.length = ([TextLine.mk [Fragment.mk "helvetica" 12 "" false
          100 ['a', 'b']] 2 0 false false,
        TextLine.mk [Fragment.mk "helvetica" 12 "" false 100
          ['c', 'd']] 2 0 false false] : List TextLine).length ∧
      (∀ s ∈ seps, s = [] ∨ s = [SPACE] ∨ s = [NEWLINE]) ∧
      (List.zipWith (fun l s => TextLine.chars l ++ s)
          [TextLine.mk [Fragment.mk "helvetica" 12 "" false 100
            ['a', 'b']] 2 0 false false,
           TextLine.mk [Fragment.mk "helvetica" 12 "" false 100
            ['c', 'd']] 2 0 false false] seps).flatten
        = (MultiLineBreak.mk
            [Fragment.mk "helvetica" 12 "" false 100
              ['a', 'b', ' ', 'c', 'd']]
            (fun _ _ => 1) true false).textChars :=
  ⟨by decide,
    C6_reconstruction
      (MultiLineBreak.mk
        [Fragment.mk "helvetica" 12 "" false 100
          ['a', 'b', ' ', 'c', 'd']]
        (fun _ _ => 1) true false)
      20 [(2, true), (10, true), (10, true)]
      [TextLine.mk [Fragment.mk "helvetica" 12 "" false 100
          ['a', 'b']] 2 0 false false,
       TextLine.mk [Fragment.mk "helvetica" 12 "" false 100
          ['c', 'd']] 2 0 false false]
      (MLBState.mk 1 0 Option.none)
      (by decide) (fun ch s => one_pos) (by decide)⟩

/-- Width of the line produced by `automatic_break`, from the widths
recorded in the hints: the space checkpoint restores its recorded width;
the hyphen checkpoint restores its recorded width and then adds the
substitute hyphen's measured width. -/
theorem automatic_break_width (cl : CurrentLine) (j : Bool) (maxW : ℚ)
    (fi ci : ℕ) (line : TextLine)
    (h : cl.automatic_break j = Option.some (fi, ci, line))
    (hsp : ∀ sh, cl.space_break_hint = Option.some sh → sh.width ≤ maxW)
    (hhy : ∀ hh, cl.hyphen_break_hint = Option.some hh →
      hh.width ≤ maxW ∧ hh.width + hh.curchar_width ≤ maxW) :
    line.text_width ≤ maxW := by
  have hyphenCase : ∀ a : HyphenHint, cl.hyphen_break_hint = Option.some a →
      ((CurrentLine.hyphenBreakResult cl a j).2.2 : TextLine).text_width
        ≤ maxW := by
    intro a ha
    show (((cl.applyHint a.current_line_fragment_index
      a.current_line_character_index a.number_of_spaces
      a.width).add_character a.curchar a.curchar_width
        a.curchar_font_family a.curchar_font_size_pt a.curchar_font_style
        a.curchar_underline a.curchar_font_stretching
        a.original_fragment_index
        a.original_character_index).manual_break j).text_width ≤ maxW
    rw [(manual_break_fields _ j false).2.1]
    rw [add_character_width]
    obtain ⟨h1, h2⟩ := hhy a ha
    split_ifs with hkeep
    · exact h2
    · exact h1
  cases hh : cl.hyphen_break_hint with
  | some a =>
      cases hs : cl.space_break_hint with
      | some b =>
          simp only [CurrentLine.automatic_break, hh, hs] at h
          split at h
          · have h' := Option.some.inj h
            have hline : (CurrentLine.hyphenBreakResult cl a j).2.2 = line :=
              by rw [h']
            rw [← hline]
            exact hyphenCase a hh
          · have h' := Option.some.inj h
            have hline :
                ((b.original_fragment_index, b.original_character_index,
                  (cl.applyHint b.current_line_fragment_index
                    b.current_line_character_index b.number_of_spaces
                    b.width).manual_break j) :
                  ℕ × ℕ × TextLine).2.2 = line := by rw [h']
            rw [← hline]
            show ((cl.applyHint b.current_line_fragment_index
              b.current_line_character_index b.number_of_spaces
              b.width).manual_break j).text_width ≤ maxW
            rw [(manual_break_fields _ j false).2.1]
            exact hsp b hs
      | none =>
          simp only [CurrentLine.automatic_break, hh, hs] at h
          have h' := Option.some.inj h
          have hline : (CurrentLine.hyphenBreakResult cl a j).2.2 = line :=
            by rw [h']
          rw [← hline]
          exact hyphenCase a hh
  | none =>
      cases hs : cl.space_break_hint with
      | some b =>
          simp only [CurrentLine.automatic_break, hh, hs] at h
          have h' := Option.some.inj h
          have hline :
              ((b.original_fragment_index, b.original_character_index,
                (cl.applyHint b.current_line_fragment_index
                  b.current_line_character_index b.number_of_spaces
                  b.width).manual_break j) :
                ℕ × ℕ × TextLine).2.2 = line := by rw [h']
          rw [← hline]
          show ((cl.applyHint b.current_line_fragment_index
            b.current_line_character_index b.number_of_spaces
            b.width).manual_break j).text_width ≤ maxW
          rw [(manual_break_fields _ j false).2.1]
          exact hsp b hs
      | none =>
          simp only [CurrentLine.automatic_break, hh, hs] at h
          simp at h

/-- Invariant proof for claim C5: if the accumulated width and the
recorded checkpoint widths are within the budget, every line the loop
returns has width within the budget. -/
theorem lineLoop_width_invariant (mlb : MultiLineBreak) (maxW : ℚ)
    (ws : Bool) (saved : Option ℕ) (startF startC : ℕ)
    (hmW : 0 ≤ maxW) :
    ∀ (fuel fragIdx charIdx : ℕ) (cl : CurrentLine),
      cl.width ≤ maxW →
      (∀ sh, cl.space_break_hint = Option.some sh → sh.width ≤ maxW) →
      (∀ hh, cl.hyphen_break_hint = Option.some hh →
        hh.width ≤ maxW ∧ hh.width + hh.curchar_width ≤ maxW) →
      ∀ line st',
        MultiLineBreak.lineLoop mlb maxW ws saved startF startC fuel fragIdx
          charIdx cl = Option.some (Except.ok (Option.some line, st')) →
        line.text_width ≤ maxW := by
  intro fuel
  induction fuel with
  | zero =>
      intro fragIdx charIdx cl _ _ _ line st' h
      rw [MultiLineBreak.lineLoop] at h
      exact absurd h (by simp)
  | succ fuel ih =>
      intro fragIdx charIdx cl hw hsp hhy line st' h
      by_cases hf : fragIdx < mlb.styled_text_fragments.length
      · by_cases hcc : charIdx < (mlb.fragAt fragIdx).characters.length
        · by_cases hn : mlb.charAt fragIdx charIdx = NEWLINE
          · rw [lineLoop_step_newline mlb maxW ws saved startF startC fuel
              fragIdx charIdx cl hf hcc hn] at h
            simp only [Option.some.injEq, Except.ok.injEq,
              Prod.mk.injEq] at h
            obtain ⟨h1, h2⟩ := h
            subst h1
            rw [(manual_break_fields cl false true).2.1]
            exact hw
          · by_cases hov :
                cl.width + mlb.widthAt fragIdx charIdx > maxW
            · by_cases hspc : mlb.charAt fragIdx charIdx = SPACE
              · rw [lineLoop_step_space_break mlb maxW ws saved startF
                  startC fuel fragIdx charIdx cl hf hcc hn hov hspc] at h
                simp only [Option.some.injEq, Except.ok.injEq,
                  Prod.mk.injEq] at h
                obtain ⟨h1, h2⟩ := h
                subst h1
                rw [(manual_break_fields cl mlb.justify false).2.1]
                exact hw
              · by_cases hab : cl.automatic_break_possible = true
                · obtain ⟨fi, ci, lineA, habr⟩ :=
                    automatic_break_isSome cl mlb.justify hab
                  rw [lineLoop_step_auto mlb maxW ws saved startF startC
                    fuel fragIdx charIdx cl hf hcc hn hov hspc hab fi ci
                    lineA habr] at h
                  simp only [Option.some.injEq, Except.ok.injEq,
                    Prod.mk.injEq] at h
                  obtain ⟨h1, h2⟩ := h
                  subst h1
                  exact automatic_break_width cl mlb.justify maxW fi ci _
                    habr hsp hhy
                · by_cases hws : ws = true
                  · by_cases hsv : saved = Option.some charIdx
                    · rw [lineLoop_step_error mlb maxW ws saved startF
                        startC fuel fragIdx charIdx cl hf hcc hn hov hspc
                        hab hws hsv] at h
                      exact absurd h (by simp)
                    · rw [lineLoop_step_forced mlb maxW ws saved startF
                        startC fuel fragIdx charIdx cl hf hcc hn hov hspc
                        hab hws hsv] at h
                      simp only [Option.some.injEq, Except.ok.injEq,
                        Prod.mk.injEq] at h
                      obtain ⟨h1, h2⟩ := h
                      subst h1
                      rw [(manual_break_fields cl false false).2.1]
                      exact hw
                  · rw [lineLoop_step_nosplit mlb maxW ws saved startF
                      startC fuel fragIdx charIdx cl hf hcc hn hov hspc
                      hab hws] at h
                    simp only [Option.some.injEq, Except.ok.injEq,
                      Prod.mk.injEq] at h
                    obtain ⟨h1, h2⟩ := h
                    subst h1
                    rw [(manual_break_fields _ mlb.justify false).2.1]
                    exact hmW
            · rw [lineLoop_step_add mlb maxW ws saved startF startC fuel
                fragIdx charIdx cl hf hcc hn hov] at h
              have hle : cl.width + mlb.widthAt fragIdx charIdx ≤ maxW :=
                le_of_not_lt hov
              refine ih fragIdx (charIdx + 1) _ ?_ ?_ ?_ line st' h
              · rw [add_character_width]
                split_ifs with hkeep
                · exact hle
                · exact hw
              · intro sh' hsome
                rw [add_character_space_hint] at hsome
                by_cases hspc : mlb.charAt fragIdx charIdx = SPACE
                · rw [if_pos hspc] at hsome
                  cases Option.some.inj hsome
                  exact hw
                · rw [if_neg hspc] at hsome
                  exact hsp sh' hsome
              · intro hh' hsome
                rw [add_character_hyphen_hint] at hsome
                by_cases hshc : mlb.charAt fragIdx charIdx = SOFT_HYPHEN ∧
                    cl.print_sh = false
                · rw [if_pos hshc] at hsome
                  cases Option.some.inj hsome
                  exact ⟨hw, hle⟩
                · rw [if_neg hshc] at hsome
                  exact hhy hh' hsome
        · rw [lineLoop_step_skip mlb maxW ws saved startF startC fuel
            fragIdx charIdx cl hf hcc] at h
          exact ih (fragIdx + 1) 0 cl hw hsp hhy line st' h
      · by_cases hwz : cl.width ≠ 0
        · rw [lineLoop_step_exit_line mlb maxW ws saved startF startC fuel
            fragIdx charIdx cl hf hwz] at h
          simp only [Option.some.injEq, Except.ok.injEq,
            Prod.mk.injEq] at h
          obtain ⟨h1, h2⟩ := h
          subst h1
          rw [(manual_break_fields cl false false).2.1]
          exact hw
        · rw [lineLoop_step_exit_sentinel mlb maxW ws saved startF startC
            fuel fragIdx charIdx cl hf hwz] at h
          exact absurd h (by simp)

/-- **C5.**  For every run sequence, every driver state and every query
`get_line_of_given_width(W)` with `W ≥ 0` that returns a line, the
line's total width is at most `W` — including lines produced through the
hyphen rollback path, where the substitute hyphen's measured width is
added to the restored checkpoint width (both recorded at a moment the
guard `width + char_width ≤ W` held).  This is slightly stronger than
the claim, which excludes the forced single-character-split lines: those
also satisfy the bound, because a forced split returns only what was
accumulated under the guard. -/
theorem C5_returned_line_width_le_requested (mlb : MultiLineBreak)
    (st : MLBState) (maxW : ℚ) (ws : Bool) (fuel : ℕ) (line : TextLine)
    (st' : MLBState) (hmW : 0 ≤ maxW)
    (h : mlb.get_line_of_given_width st maxW ws fuel
      = Option.some (Except.ok (Option.some line, st'))) :
    line.text_width ≤ maxW := by
  unfold MultiLineBreak.get_line_of_given_width at h
  by_cases he : st.fragment_index = mlb.styled_text_fragments.length
  · rw [if_pos he] at h
    exact absurd h (by simp)
  · rw [if_neg he] at h
    exact lineLoop_width_invariant mlb maxW ws
      st.char_index_for_last_forced_manual_break st.fragment_index
      st.character_index hmW fuel st.fragment_index st.character_index
      (CurrentLine.init mlb.print_sh) hmW
      (by intro sh hs; simp [CurrentLine.init] at hs)
      (by intro hh hs; simp [CurrentLine.init] at hs)
      line st' h

/-- Witness for `C5_returned_line_width_le_requested`: the `"a b "` run
with query width 3 returns the line `"a b"` of width 3 ≤ 3. -/
theorem C5_witness :
    (TextLine.mk [Fragment.mk "helvetica" 12 "" false 100 ['a', ' ', 'b']]
      3 1 true false).text_width ≤ (3 : ℚ) :=
  C5_returned_line_width_le_requested
    (MultiLineBreak.mk
      [Fragment.mk "helvetica" 12 "" false 100 ['a', ' ', 'b', ' ']]
      (fun _ _ => 1) true false)
    (MLBState.mk 0 0 Option.none) 3 true 20
    (TextLine.mk [Fragment.mk "helvetica" 12 "" false 100 ['a', ' ', 'b']]
      3 1 true false)
    (MLBState.mk 0 4 Option.none) (by norm_num) (by decide)

/-! ## Claim C3 — the LayoutImpossible condition -/

/-- **C3 counterexample.**  The claim says the error is raised *exactly
when* the width cannot accommodate even one character on an
otherwise-empty line, with the two consecutive failures at the same
character *position*.  The code only remembers the character *index
within its fragment* (line_break.py lines 267-270 and 313-317), not the
fragment index.  Runs `"ab"`, `"cd"` with widths `d=10`, others `1`:
the first query (width 1) forces a split at position `(0, 1)`; the
second query (width 3) accumulates `"bc"` and fails at position
`(1, 1)` — a different position, on a non-empty line, with a width that
accommodates the character at the cursor (conjunct 3) — yet the
exception is raised. -/
theorem C3_counterexample_cross_fragment_false_positive :
    (MultiLineBreak.mk
        [Fragment.mk "helvetica" 12 "" false 100 ['a', 'b'],
          Fragment.mk "helvetica" 12 "" false 100 ['c', 'd']]
        (fun c _ => if c = 'd' then 10 else 1)
        false false).get_line_of_given_width (MLBState.mk 0 0 Option.none)
        1 true 20
      = Option.some (Except.ok
          (Option.some (TextLine.mk
            [Fragment.mk "helvetica" 12 "" false 100 ['a']] 1 0 false
            false), MLBState.mk 0 1 (Option.some 1))) ∧
    (MultiLineBreak.mk
        [Fragment.mk "helvetica" 12 "" false 100 ['a', 'b'],
          Fragment.mk "helvetica" 12 "" false 100 ['c', 'd']]
        (fun c _ => if c = 'd' then 10 else 1)
        false false).get_line_of_given_width
        (MLBState.mk 0 1 (Option.some 1)) 3 true 20
      = Option.some (Except.error ()) ∧
    (MultiLineBreak.mk
        [Fragment.mk "helvetica" 12 "" false 100 ['a', 'b'],
          Fragment.mk "helvetica" 12 "" false 100 ['c', 'd']]
        (fun c _ => if c = 'd' then 10 else 1)
        false false).widthAt 0 1 ≤ 3 := by
  refine ⟨by decide, by decide, by decide⟩

/-- **C3 amended.**  The spec's literal scenario holds exactly as
stated: with character widths `a=2, b=3, c=4, d=5` and input `"abcd"`,
the query sequence widths `0, 2, 1` yields an empty line of width 0,
then the line `"a"` of width 2, then raises the
`FPDFException`/LayoutImpossible error (second consecutive
overflow-without-break at the same within-fragment character index). -/
theorem C3_layout_impossible_literal_scenario :
    (MultiLineBreak.mk
        [Fragment.mk "helvetica" 12 "" false 100 ['a', 'b', 'c', 'd']]
        (fun c _ => if c = 'a' then 2 else if c = 'b' then 3
          else if c = 'c' then 4 else if c = 'd' then 5 else 1)
        false false).get_line_of_given_width (MLBState.mk 0 0 Option.none)
        0 true 20
      = Option.some (Except.ok
          (Option.some (TextLine.mk [] 0 0 false false),
            MLBState.mk 0 0 (Option.some 0))) ∧
    (MultiLineBreak.mk
        [Fragment.mk "helvetica" 12 "" false 100 ['a', 'b', 'c', 'd']]
        (fun c _ => if c = 'a' then 2 else if c = 'b' then 3
          else if c = 'c' then 4 else if c = 'd' then 5 else 1)
        false false).get_line_of_given_width
        (MLBState.mk 0 0 (Option.some 0)) 2 true 20
      = Option.some (Except.ok
          (Option.some (TextLine.mk
            [Fragment.mk "helvetica" 12 "" false 100 ['a']] 2 0 false
            false), MLBState.mk 0 1 (Option.some 1))) ∧
    (MultiLineBreak.mk
        [Fragment.mk "helvetica" 12 "" false 100 ['a', 'b', 'c', 'd']]
        (fun c _ => if c = 'a' then 2 else if c = 'b' then 3
          else if c = 'c' then 4 else if c = 'd' then 5 else 1)
        false false).get_line_of_given_width
        (MLBState.mk 0 1 (Option.some 1)) 1 true 20
      = Option.some (Except.error ()) := by
  refine ⟨by decide, by decide, by decide⟩

/-! ## Claim C4 — best-rollback selection between the two hints -/

/-- **C4.**  `CurrentLine.automatic_break` selects the hyphen hint iff
its recorded width strictly exceeds the space hint's recorded width
(line_break.py lines 214-217); a lone hint is always selected; and when
the hyphen hint is chosen, the stored substitute character (always the
visible `HYPHEN`) is appended to the restored line before `manual_break`
finalizes it.  Selection is observed through the returned resume position
(the hint's original fragment/character index) and the returned line's
character content (the content truncated at the hint's recorded line
position, plus the substitute hyphen in the hyphen case). -/
theorem C4_automatic_break_selection (cl : CurrentLine) (j : Bool) :
    (∀ hh sh, cl.hyphen_break_hint = Option.some hh →
      cl.space_break_hint = Option.some sh → hh.width > sh.width →
      ∃ line, cl.automatic_break j = Option.some
          (hh.original_fragment_index, hh.original_character_index, line) ∧
        (hh.curchar ≠ SOFT_HYPHEN →
          line.chars = truncChars cl.fragments
              hh.current_line_fragment_index
              hh.current_line_character_index ++ [hh.curchar])) ∧
    (∀ hh sh, cl.hyphen_break_hint = Option.some hh →
      cl.space_break_hint = Option.some sh → ¬hh.width > sh.width →
      ∃ line, cl.automatic_break j = Option.some
          (sh.original_fragment_index, sh.original_character_index, line) ∧
        line.chars = truncChars cl.fragments
          sh.current_line_fragment_index
          sh.current_line_character_index) ∧
    (∀ hh, cl.hyphen_break_hint = Option.some hh →
      cl.space_break_hint = Option.none →
      ∃ line, cl.automatic_break j = Option.some
          (hh.original_fragment_index, hh.original_character_index, line) ∧
        (hh.curchar ≠ SOFT_HYPHEN →
          line.chars = truncChars cl.fragments
              hh.current_line_fragment_index
              hh.current_line_character_index ++ [hh.curchar])) ∧
    (∀ sh, cl.hyphen_break_hint = Option.none →
      cl.space_break_hint = Option.some sh →
      ∃ line, cl.automatic_break j = Option.some
          (sh.original_fragment_index, sh.original_character_index, line) ∧
        line.chars = truncChars cl.fragments
          sh.current_line_fragment_index
          sh.current_line_character_index) := by
  refine ⟨?_, ?_, ?_, ?_⟩
  · intro hh sh hhyp hsp hgt
    refine ⟨(CurrentLine.hyphenBreakResult cl hh j).2.2, ?_, ?_⟩
    · simp only [CurrentLine.automatic_break, hhyp, hsp]
      rw [if_pos hgt]
      rfl
    · intro hcur
      show (CurrentLine.hyphenBreakResult cl hh j).2.2.chars = _
      unfold CurrentLine.hyphenBreakResult
      rw [(manual_break_fields _ j false).1]
      rw [add_character_chars]
      rw [if_pos (Or.inl hcur)]
      rfl
  · intro hh sh hhyp hsp hle
    refine ⟨(cl.applyHint sh.current_line_fragment_index
      sh.current_line_character_index sh.number_of_spaces
      sh.width).manual_break j, ?_, ?_⟩
    · simp only [CurrentLine.automatic_break, hhyp, hsp]
      rw [if_neg hle]
    · exact (manual_break_fields _ j false).1
  · intro hh hhyp hsp
    refine ⟨(CurrentLine.hyphenBreakResult cl hh j).2.2, ?_, ?_⟩
    · simp only [CurrentLine.automatic_break, hhyp, hsp]
      rfl
    · intro hcur
      show (CurrentLine.hyphenBreakResult cl hh j).2.2.chars = _
      unfold CurrentLine.hyphenBreakResult
      rw [(manual_break_fields _ j false).1]
      rw [add_character_chars]
      rw [if_pos (Or.inl hcur)]
      rfl
  · intro sh hhyp hsp
    refine ⟨(cl.applyHint sh.current_line_fragment_index
      sh.current_line_character_index sh.number_of_spaces
      sh.width).manual_break j, ?_, ?_⟩
    · simp only [CurrentLine.automatic_break, hhyp, hsp]
    · exact (manual_break_fields _ j false).1

/-- Witness for `C4_automatic_break_selection`: a line "abc" with a space
checkpoint of width 3 and a hyphen checkpoint of width 6 rolls back to
the hyphen checkpoint and gets the visible hyphen appended. -/
theorem C4_witness :
    ∃ line,
      (CurrentLine.mk false
          [Fragment.mk "helvetica" 12 "" false 100 ['a', 'b', 'c']] 6 0
          (Option.some (SpaceHint.mk 0 1 1 1 3 0))
          (Option.some (HyphenHint.mk 0 5 1 2 6 0 HYPHEN 1 "helvetica" 12
            "" false 100))).automatic_break true
        = Option.some (0, 5, line) ∧
      line.chars = ['a', 'b', HYPHEN] := by
  obtain ⟨line, h1, h2⟩ :=
    (C4_automatic_break_selection
      (CurrentLine.mk false
        [Fragment.mk "helvetica" 12 "" false 100 ['a', 'b', 'c']] 6 0
        (Option.some (SpaceHint.mk 0 1 1 1 3 0))
        (Option.some (HyphenHint.mk 0 5 1 2 6 0 HYPHEN 1 "helvetica" 12
          "" false 100))) true).1 _ _ rfl rfl (by norm_num)
  refine ⟨line, h1, ?_⟩
  rw [h2 (by decide)]
  decide

/-! ## Claim C9 — cell width of a column span -/

/-- Closed form of `Table._get_col_width` for a `col_widths` sequence. -/
theorem get_col_width_seq_closed_form (ws : List ℚ) (tw g : ℚ) (cc j n : ℕ)
    (hn : 1 ≤ n) (hj : j + n ≤ ws.length) (hs : ws.sum ≠ 0) :
    Table.get_col_width (ColWidths.seq ws) tw g cc j n =
      Except.ok (((List.range n).map
        (fun k => ws.getD (j + k) 0 / ws.sum *
            (tw - ((cc - 1 : ℕ) : ℚ) * g) +
          if k ≠ 0 then g else 0)).sum) := by
  have hjlen : ¬j ≥ ws.length := by omega
  simp only [Table.get_col_width]
  rw [if_neg hjlen]
  rw [foldlM_add_ok _ (fun k => ws.getD (j + k) 0 / ws.sum *
      (tw - ((cc - 1 : ℕ) : ℚ) * g) + if k ≠ 0 then g else 0)]
  · norm_num
  · intro k hk acc
    have hk' : j + k < ws.length := by
      have := List.mem_range.mp hk
      omega
    simp only [get?_eq_some_getD ws (j + k) 0 hk', if_neg hs]
    congr 1
    ring

/-- **C9.**  First conjunct: for every `col_widths` configuration, table
width, non-negative gutter and well-formed span (`n ≥ 1` columns starting
at column `j`), the effective width `Table._get_col_width` computes for
the span equals the sum of the `n` spanned columns' individual widths
plus `(n-1)` internal gutter widths.  Second conjunct: the spec's literal
scenario — 2 proportional columns, one cell with `colspan=2` — resolves
to the full table width. -/
theorem C9_colspan_width_is_sum_of_shares_plus_gutters :
    (∀ (cw : ColWidths) (tw g : ℚ) (cc j n : ℕ), 1 ≤ n → 0 ≤ g →
      (∀ ws, cw = ColWidths.seq ws → j + n ≤ ws.length ∧ ws.sum ≠ 0) →
      ∃ singles : List ℚ,
        (List.range n).mapM
            (fun k => Table.get_col_width cw tw g cc (j + k) 1)
          = Except.ok singles ∧
        Table.get_col_width cw tw g cc j n
          = Except.ok (singles.sum + ((n - 1 : ℕ) : ℚ) * g)) ∧
    (∀ (tw g w1 w2 : ℚ), 0 ≤ g → w1 + w2 ≠ 0 →
      Table.get_col_width (ColWidths.seq [w1, w2]) tw g 2 0 2
        = Except.ok tw) := by
  constructor
  · intro cw tw g cc j n hn hg hseq
    have hmax : max (((n - 1 : ℕ) : ℚ) * g) 0 = ((n - 1 : ℕ) : ℚ) * g :=
      max_eq_left (by positivity)
    have hmax1 : max (((1 - 1 : ℕ) : ℚ) * g) 0 = 0 := by norm_num
    cases cw with
    | noSpec =>
        refine ⟨List.replicate n ((tw - ((cc - 1 : ℕ) : ℚ) * g) / cc), ?_, ?_⟩
        · have hsingle : ∀ a ∈ List.range n,
              Table.get_col_width ColWidths.noSpec tw g cc (j + a) 1
                = Except.ok ((tw - ((cc - 1 : ℕ) : ℚ) * g) / cc) := by
            intro a _
            simp only [Table.get_col_width]
            rw [hmax1]
            norm_num
          refine (mapM_ok _ _ _ hsingle).trans ?_
          simp
        · simp only [Table.get_col_width]
          rw [hmax, List.sum_replicate, nsmul_eq_mul]
    | single w =>
        refine ⟨List.replicate n w, ?_, ?_⟩
        · have hsingle : ∀ a ∈ List.range n,
              Table.get_col_width (ColWidths.single w) tw g cc (j + a) 1
                = Except.ok w := by
            intro a _
            simp only [Table.get_col_width]
            rw [hmax1]
            norm_num
          refine (mapM_ok _ _ _ hsingle).trans ?_
          simp
        · simp only [Table.get_col_width]
          rw [hmax, List.sum_replicate, nsmul_eq_mul]
    | seq ws =>
        obtain ⟨hj, hs⟩ := hseq ws rfl
        refine ⟨(List.range n).map
          (fun k => ws.getD (j + k) 0 / ws.sum *
            (tw - ((cc - 1 : ℕ) : ℚ) * g)), ?_, ?_⟩
        · have hsingle : ∀ k ∈ List.range n,
              Table.get_col_width (ColWidths.seq ws) tw g cc (j + k) 1
                = Except.ok (ws.getD (j + k) 0 / ws.sum *
                    (tw - ((cc - 1 : ℕ) : ℚ) * g)) := by
            intro k hk
            have hk' : j + k + 1 ≤ ws.length := by
              have := List.mem_range.mp hk
              omega
            rw [get_col_width_seq_closed_form ws tw g cc (j + k) 1 le_rfl
              hk' hs]
            simp [List.range_succ]
          rw [mapM_ok _ _ _ hsingle]
        · rw [get_col_width_seq_closed_form ws tw g cc j n hn hj hs]
          rw [sum_map_add_split]
          rw [sum_gutter_terms g n hn]
  · intro tw g w1 w2 hg hs
    have hs' : [w1, w2].sum ≠ 0 := by simpa using hs
    rw [get_col_width_seq_closed_form [w1, w2] tw g 2 0 2 (by norm_num)
      (by simp) hs']
    congr 1
    have hsum : [w1, w2].sum = w1 + w2 := by simp
    simp only [List.range_succ, List.range_zero, List.nil_append,
      List.map_append, List.map_cons, List.map_nil, List.sum_append,
      List.sum_cons, List.sum_nil, List.cons_append,
      List.getD_cons_zero, List.getD_cons_succ, hsum]
    norm_num
    field_simp
    ring

/-- Witness for `C9_colspan_width_is_sum_of_shares_plus_gutters`:
columns `[3, 5]`, table width 30, gutter 2 — the colspan-2 cell resolves
to the full 30. -/
theorem C9_witness :
    Table.get_col_width (ColWidths.seq [3, 5]) 30 2 2 0 2
      = Except.ok 30 :=
  C9_colspan_width_is_sum_of_shares_plus_gutters.2 30 2 3 5 (by norm_num)
    (by norm_num)

/-! ## Claim C1 — INTERNAL border policy -/

/-- **C1** (code bug).  The claim — top iff `row > 0`, bottom iff
`row < rows - 1`, left iff `col > 0`, right iff `col < cols - 1` — matches
the INTERNAL docstring ("draws only internal horizontal & vertical
borders") and `Table.get_cell_border`, but the lambda at table.py lines
341-348 fills the `bottom` field from the column index and the `right`
field from the row index (the two keyword arguments are swapped).  At row
0, column 1 of a 2×2 table the lambda yields `right = true` (an **outer**
border) and `bottom = false` (a missing internal border), while
`get_cell_border` in the same file keeps exactly `L` and `B` there. -/
theorem C1_internal_policy_swaps_bottom_and_right :
    TableBordersLayout.INTERNAL_cell_style_getter 0 1 1 2 2 =
      TableCellStyle.mk true false true false ∧
    Table.get_cell_border BordersLayoutKind.INTERNAL 1 2 0 1 true =
      CellBorder.letters ['L', 'B'] := by
  decide

/-! ## Claim C7 — MINIMAL border policy, 3 rows, 1 heading row -/

/-- **C7 counterexample.**  The claim states that with the MINIMAL policy
(3 rows, 1 heading row) the top edge is present on row 0; the code
(table.py line 355: `top=0 < row_num <= num_heading_rows`) yields
`top = false` on row 0. -/
theorem C7_counterexample_top_absent_on_row_zero :
    (TableBordersLayout.MINIMAL_cell_style_getter 0 0 1 3 2).top = false := by
  decide

/-- **C7 amended.**  For the MINIMAL policy on 3 rows with 1 heading row,
for every column: the top edge is present exactly on row 1 (generally:
iff `0 < row ≤ num_heading_rows`, not "row 0 or row ≤ heading rows"), and
the bottom edge is present exactly on row 0 (iff `row < heading rows`,
as claimed). -/
theorem C7_minimal_policy_three_rows (col num_cols r : ℕ) (h : r < 3) :
    ((TableBordersLayout.MINIMAL_cell_style_getter r col 1 3 num_cols).top
        = true ↔ r = 1) ∧
    ((TableBordersLayout.MINIMAL_cell_style_getter r col 1 3 num_cols).bottom
        = true ↔ r = 0) := by
  unfold TableBordersLayout.MINIMAL_cell_style_getter
  simp only [decide_eq_true_eq]
  omega

/-- Witness for `C7_minimal_policy_three_rows` at row 1. -/
theorem C7_minimal_policy_three_rows_witness :
    ((TableBordersLayout.MINIMAL_cell_style_getter 1 0 1 3 2).top
        = true ↔ (1 : ℕ) = 1) ∧
    ((TableBordersLayout.MINIMAL_cell_style_getter 1 0 1 3 2).bottom
        = true ↔ (1 : ℕ) = 0) :=
  C7_minimal_policy_three_rows 0 2 1 (by decide)

/-! ## Claim C8 — host state on a ConfigurationError in Table.render -/

/-- **C8** (code bug).  With `align=CENTER` and a `col_widths` sequence
shorter than the column count, `Table.render` mutates the host's
`l_margin` and `x` (table.py lines 601-604) *before* the column-width
pre-computation (lines 611-618) raises from `_get_col_width` (line 925).
Here: entry margin 10, table width 30 centered on a 100-wide page → the
error propagates with `l_margin = x = 35 ≠ 10`, contradicting the claim
that the host state at error propagation equals its entry value. -/
theorem C8_margin_mutated_before_col_widths_validation :
    Table.renderPositioningPhase
        (TableRenderCfg.mk 30 TableAlign.C (ColWidths.seq [10]) 0 1 true
          [2, 2])
        (FPDFHost.mk 10 10 100 10 80)
      = Except.error (FPDFHost.mk 35 35 100 10 80) ∧
    (FPDFHost.mk 35 35 100 10 80).l_margin ≠
      (FPDFHost.mk 10 10 100 10 80).l_margin := by
  constructor
  · norm_num +decide [Table.renderPositioningPhase, Table.get_col_width,
      List.range_succ, Except.instMonad, Except.bind]
  · norm_num

/-! ## Claim C10 — a cell with both text and an image -/

/-- **C10.**  For every row and every cell descriptor carrying both
non-empty text and an image reference, `Row.cell` raises
`NotImplementedError` (table.py lines 1047-1051) and the row's cell list
is unchanged (the raise happens before the append of line 1060). -/
theorem C10_text_with_image_raises_and_leaves_row_unchanged
    (r : Row) (font_face : Option String) (text : String)
    (align v_align style img : Option String) (img_fill_width : Bool)
    (colspan : ℕ) (padding link : Option String)
    (ht : text ≠ "") (hi : img.isSome) :
    Row.cell r font_face text align v_align style img img_fill_width colspan
        padding link
      = (Except.error (), r) := by
  unfold Row.cell
  rw [if_pos ⟨ht, hi⟩]

/-- Witness for `C10_text_with_image_raises_and_leaves_row_unchanged`. -/
theorem C10_witness :
    Row.cell (Row.mk [] Option.none) Option.none "x" Option.none Option.none
        Option.none (Option.some "pic.png") false 1 Option.none Option.none
      = (Except.error (), Row.mk [] Option.none) :=
  C10_text_with_image_raises_and_leaves_row_unchanged
    (Row.mk [] Option.none) Option.none "x" Option.none Option.none
    Option.none (Option.some "pic.png") false 1 Option.none Option.none
    (by decide) (by decide)

end Fpdf
